import Mathlib

/-!
# Verification of `lib/fuse_opt.c` (libfuse option parsing)

A shallow embedding of the option-parsing engine in `lib/fuse_opt.c`.
C strings are modelled as `List Char`, the argument vector as a list of
strings, the caller's opaque record (`void *data`) as a store mapping
byte offsets to cells, and fallible C functions (returning `-1` on
error) as `Option`-valued Lean functions.  Memory-allocation failure
paths (`alloc_failed`) are not modelled: allocation is assumed to
succeed, which is the code path every claim under scrutiny speaks about.

A ghost `trace` field records, in order, every invocation of the user
callback, every spec-table entry processed for a dispatched token, and
every grouped sub-option added to the pending merge accumulator.  The
trace has no influence on control flow or on any non-ghost field; it
only makes "the callback was (not) invoked" and "this entry fired"
formally observable.
-/

namespace Fuse

/-- A C string (`char *`), as the list of its characters up to the NUL. -/
abbrev Str := List Char

/-- One cell of the caller's opaque record: the parser writes either an
`int` (`*(int *)var = opt->value`, or a scanned numeric parameter) or a
freshly copied string (`%s` conversions) through a `struct fuse_opt`
offset. -/
inductive Cell where
  | int (i : Int)
  | str (s : Str)
deriving DecidableEq

/-- The caller's opaque record (`void *data`): a store from byte
offsets to cells. -/
def Data := Nat → Cell

/-- Write one cell of the record at the given offset. -/
def Data.write (d : Data) (off : Nat) (c : Cell) : Data :=
  fun i => if i = off then c else d i

/-- Modelled from the spec: the reserved option keys declared in
`fuse_opt.h` (the header is not part of the sources at hand; the spec
describes KEEP, DISCARD, NONOPT and an "unknown option" key as four
distinct reserved values, matching the `FUSE_OPT_KEY_*` macros used by
`fuse_opt.c`). -/
def FUSE_OPT_KEY_OPT : Int := -1

/-- Modelled from the spec: reserved key for positional arguments. -/
def FUSE_OPT_KEY_NONOPT : Int := -2

/-- Modelled from the spec: reserved key "keep unconditionally". -/
def FUSE_OPT_KEY_KEEP : Int := -3

/-- Modelled from the spec: reserved key "discard unconditionally". -/
def FUSE_OPT_KEY_DISCARD : Int := -4

/-- Modelled from the spec: `struct fuse_opt` as used by `fuse_opt.c`:
a template string, a destination offset into the caller's record where
`offset = none` models the `-1U` "no destination, the `value` is a key"
sentinel, and the `value`/key integer. -/
structure FuseOpt where
  templ : Str
  offset : Option Nat
  value : Int
deriving DecidableEq

/-- Modelled from the spec: `fuse_opt_proc_t`.  The callback receives
the record, the raw option text, the resolved key and the
output-vector-in-progress; it returns its integer verdict together
with the (possibly updated) record and output vector, modelling the
mutation it may perform through its two pointer arguments. -/
def Proc := Data → Str → Int → List Str → Int × Data × List Str

/-- `struct fuse_args`: `argv = none` models a NULL `argv` pointer;
`argc` is the length of the list. -/
structure FuseArgs where
  argv : Option (List Str)
deriving DecidableEq

/-- The type of a generalized option (`enum fuse_gopt_type`). -/
inductive GoptType where
  | GOPT_FLAG
  | GOPT_OPTION
deriving DecidableEq

/-- Ghost observation events (not present in the C code): one entry per
user-callback invocation, per spec-table entry processed, and per
sub-option added to the `-o` merge accumulator. -/
inductive Event where
  | procCall (arg : Str) (key : Int) (res : Int)
  | fired (o : FuseOpt)
  | keptOpt (arg : Str)
deriving DecidableEq

/-- `add_opt_common(opts, opt, esc)` from `fuse_opt.c`: append `opt` to
the accumulator `opts` (`none` models a NULL pointer), preceded by a
comma when the accumulator already holds a nonempty string, escaping
`,` and `\` with a backslash when `esc` is set. -/
def add_opt_common (opts : Option Str) (opt : Str) (esc : Bool) : Str :=
  let old := opts.getD []
  (if old.length ≠ 0 then old ++ [','] else []) ++
    opt.flatMap (fun c => if esc ∧ (c = ',' ∨ c = '\\') then ['\\', c] else [c])

/-- The escaping applied by `add_opt_common` with `esc` set: `,` and `\`
get a backslash prefix, all other characters pass through. -/
def escOpt (opt : Str) : Str :=
  opt.flatMap (fun c => if c = ',' ∨ c = '\\' then ['\\', c] else [c])

/-- `match_template(templ, arg, &sepidx)`: returns `none` on no match,
and `some sepidx` on a match, where `sepidx = 0` means the template has
no (valid) separator and otherwise `sepidx` is the index of the `=` or
space separator inside the template.  A separator is only valid when
nothing follows it or the next character is `%`; for `=` the matched
prefix includes the separator, for a space it does not. -/
def match_template (templ arg : Str) : Option Nat :=
  let sep : Option Nat :=
    match templ.findIdx? (· = '=') with
    | some i => some i
    | none => templ.findIdx? (· = ' ')
  let sep : Option Nat :=
    match sep with
    | some i => if (templ.get? (i + 1)).isSome ∧ templ.get? (i + 1) ≠ some '%'
                then none else some i
    | none => none
  match sep with
  | some i =>
      let stemlen := if templ.get? i = some '=' then i + 1 else i
      if arg.length ≥ stemlen ∧ arg.take stemlen = templ.take stemlen then
        some i
      else if templ = arg then some 0 else none
  | none => if templ = arg then some 0 else none

/-- `find_opt(optspecs, arg, &sepidx)`: the first spec-table entry whose
template matches `arg` (the end of the list models the `FUSE_OPT_END`
sentinel). -/
def find_opt (optspecs : List FuseOpt) (arg : Str) : Option FuseOpt :=
  match optspecs with
  | [] => none
  | o :: os => if (match_template o.templ arg).isSome then some o else find_opt os arg

/-- The read-only part of `struct fuse_opt_context`: the `in_opt`
spec table, the `in_proc` callback (`none` models NULL) and the
`in_args` input vector. -/
structure Env where
  opt : List FuseOpt
  proc : Option Proc
  argv : List Str

/-- `in_args.argc`. -/
def Env.argc (e : Env) : Nat := e.argv.length

/-- `in_args.argv[i]` (only ever read at `i < argc`). -/
def Env.argvAt (e : Env) (i : Nat) : Str := e.argv.getD i []

/-- The mutable part of `struct fuse_opt_context`: the `inout_data`
record, the `out_args` vector under construction, the `tmp_argctr`
input cursor, the `tmp_opts` merge accumulator (`none` models NULL) and
the `tmp_nonopt` index, plus the ghost `trace`. -/
structure St where
  data : Data
  out : List Str
  argctr : Nat
  opts : Option Str
  nonopt : Nat
  trace : List Event

/-- `call_proc(ctx, arg, key, typ)`: route one generalized option whose
key resolved to `key`.  DISCARD drops it outright; otherwise, unless
the key is KEEP or there is no callback, the callback is consulted: a
`-1` verdict aborts, `0` drops the option, anything else keeps it.  A
kept grouped sub-option goes to the merge accumulator (escaped), a kept
flag is appended to the output vector. -/
def call_proc (env : Env) (st : St) (arg : Str) (key : Int) (typ : GoptType) :
    Option St :=
  if key = FUSE_OPT_KEY_DISCARD then
    some st
  else
    let keep : St → Option St := fun st =>
      match typ with
      | .GOPT_OPTION =>
          some { st with opts := some (add_opt_common st.opts arg true),
                         trace := st.trace ++ [.keptOpt arg] }
      | .GOPT_FLAG =>
          some { st with out := st.out ++ [arg] }
    match env.proc with
    | some p =>
        if key ≠ FUSE_OPT_KEY_KEEP then
          let r := p st.data arg key st.out
          let st := { st with data := r.2.1, out := r.2.2,
                              trace := st.trace ++ [.procCall arg key r.1] }
          if r.1 = -1 then none
          else if r.1 = 0 then some st
          else keep st
        else keep st
    | none => keep st

/-- Model of `sscanf(param, format, var)` for the numeric conversions
used by option templates (libc, not part of the repository): skip
blanks, an optional sign, then at least one decimal digit; trailing
text is ignored, exactly as `sscanf` does.  Returns `none` when no
digit is found (conversion count 0). -/
def scanNum (param : Str) : Option Int :=
  let p := param.dropWhile (· = ' ')
  let sgn : Int := if p.head? = some '-' then -1 else 1
  let p := if p.head? = some '-' ∨ p.head? = some '+' then p.tail else p
  let ds := p.takeWhile (·.isDigit)
  if ds.isEmpty then none
  else some (sgn * (ds.foldl (fun n c => 10 * n + (c.toNat - '0'.toNat)) 0))

/-- `process_opt_param(var, format, param, arg)`: write the parameter
text into the record cell at `off`; `%s` copies the text, a numeric
conversion scans it (`sscanf`), and a failed scan is a fatal
InvalidParameter. -/
def process_opt_param (st : St) (off : Nat) (format : Str) (param : Str) :
    Option St :=
  if format.get? 1 = some 's' then
    some { st with data := st.data.write off (.str param) }
  else
    match scanNum param with
    | some n => some { st with data := st.data.write off (.int n) }
    | none => none

/-- `process_opt(ctx, optspec, sep, arg, typ)`: process one matched
entry.  An entry without a destination routes through `call_proc` with
the entry's key; an entry with a destination writes the record: the
parameter text (after the separator) under the template's conversion
when the template has one, else the fixed `value`.  The leading ghost
`fired` event records that this entry fired for this token. -/
def process_opt (env : Env) (st : St) (optspec : FuseOpt) (sep : Nat)
    (arg : Str) (typ : GoptType) : Option St :=
  let st := { st with trace := st.trace ++ [.fired optspec] }
  match optspec.offset with
  | none => call_proc env st arg optspec.value typ
  | some off =>
      if sep ≠ 0 ∧ (optspec.templ.get? (sep + 1)).isSome then
        let param := arg.drop (if optspec.templ.get? sep = some '=' then sep + 1 else sep)
        process_opt_param st off (optspec.templ.drop (sep + 1)) param
      else
        some { st with data := st.data.write off (.int optspec.value) }

/-- The body of `process_gopt`'s `for` loop, written as a single scan of
the remaining spec table: `find_opt(opt + 1, arg, &sep)` skips
non-matching entries and resumes at the entry after the last match, so
the chained `find_opt` calls of the C loop visit exactly the matching
entries of the remaining list, in order.  A matching space-separated
template whose value is absent from the token consumes the next input
argument (fatal MissingArgument when there is none) and processes the
synthesized `stem ++ value` string instead. -/
def gopt_chain (env : Env) (arg : Str) (typ : GoptType) :
    St → List FuseOpt → Option St
  | st, [] => some st
  | st, o :: os =>
      match match_template o.templ arg with
      | none => gopt_chain env arg typ st os
      | some sep =>
          if sep ≠ 0 ∧ o.templ.get? sep = some ' ' ∧ arg.get? sep = none then
            if st.argctr + 1 ≥ env.argc then none
            else
              let v := env.argvAt (st.argctr + 1)
              let st := { st with argctr := st.argctr + 1 }
              match process_opt env st o sep (arg.take sep ++ v) typ with
              | none => none
              | some st => gopt_chain env arg typ st os
          else
            match process_opt env st o sep arg typ with
            | none => none
            | some st => gopt_chain env arg typ st os

/-- `process_gopt(ctx, arg, typ)`: when no entry matches, the token is
offered to the callback with the reserved unknown-option key; otherwise
every matching entry is processed in table order. -/
def process_gopt (env : Env) (st : St) (arg : Str) (typ : GoptType) :
    Option St :=
  match find_opt env.opt arg with
  | none => call_proc env st arg FUSE_OPT_KEY_OPT typ
  | some _ => gopt_chain env arg typ st env.opt

/-- Is `c` a valid first octal digit of a `\ooo` escape
(`s[0] >= '0' && s[0] <= '3'`)? -/
def isOctHi (c : Char) : Bool := '0' ≤ c ∧ c ≤ '3'

/-- Is `c` a valid later octal digit (`'0'..'7'`)? -/
def isOctLo (c : Char) : Bool := '0' ≤ c ∧ c ≤ '7'

/-- The byte denoted by the three octal digits. -/
def octChar (c1 c2 c3 : Char) : Char :=
  Char.ofNat ((c1.toNat - '0'.toNat) * 64 + (c2.toNat - '0'.toNat) * 8 +
    (c3.toNat - '0'.toNat))

/-- The `-o` group decode loop inside `process_one`: scan the group
value, accumulating decoded characters in `d`; an unescaped comma or
the end of the string terminates one sub-option, which is dispatched
eagerly through `process_gopt` before scanning continues.  A backslash
followed by a character is that literal character, except that a
backslash followed by an octal digit in `0..3` and two octal digits in
`0..7` is the byte with that octal value. -/
def group_loop (env : Env) : St → Str → Str → Option St
  | st, d, [] => process_gopt env st d .GOPT_OPTION
  | st, d, c :: s =>
      if c = ',' then
        match process_gopt env st d .GOPT_OPTION with
        | none => none
        | some st => group_loop env st [] s
      else if c = '\\' then
        match s with
        | c1 :: c2 :: c3 :: s3 =>
            if isOctHi c1 ∧ isOctLo c2 ∧ isOctLo c3 then
              group_loop env st (d ++ [octChar c1 c2 c3]) s3
            else
              group_loop env st (d ++ [c1]) (c2 :: c3 :: s3)
        | c1 :: s1 => group_loop env st (d ++ [c1]) s1
        | [] => process_gopt env st (d ++ ['\\']) .GOPT_OPTION
      else group_loop env st (d ++ [c]) s

/-- `process_one(ctx)`: classify the input token under the cursor.  In
the positional region, or when the token does not start with `-`, it is
positional (NONOPT key, appended to the output when kept).  `-o` with
an attached or following value starts a grouped-option decode (fatal
MissingArgument when the value is absent and no input remains).  A
literal `--` is appended verbatim and opens the positional region.
Anything else is a flag-style generalized option. -/
def process_one (env : Env) (st : St) : Option St :=
  let arg := env.argvAt st.argctr
  if st.nonopt ≠ 0 ∨ arg.head? ≠ some '-' then
    call_proc env st arg FUSE_OPT_KEY_NONOPT .GOPT_FLAG
  else if arg.get? 1 = some 'o' then
    if (arg.get? 2).isSome then
      group_loop env st [] (arg.drop 2)
    else if st.argctr + 1 < env.argc then
      group_loop env { st with argctr := st.argctr + 1 } []
        (env.argvAt (st.argctr + 1))
    else none
  else if arg.get? 1 = some '-' ∧ arg.get? 2 = none then
    some { st with out := st.out ++ [arg], nonopt := st.out.length + 1 }
  else
    process_gopt env st arg .GOPT_FLAG

/-- The `while (ctx->tmp_argctr < ctx->in_args.argc)` loop of
`fuse_opt_parse`, with fuel: the cursor advances by at least one per
iteration, so `argc` units of fuel always suffice (the zero-fuel branch
with input remaining is unreachable from `fuse_opt_parse`). -/
def parse_loop (env : Env) : Nat → St → Option St
  | 0, st => if st.argctr < env.argc then none else some st
  | fuel + 1, st =>
      if st.argctr < env.argc then
        match process_one env st with
        | none => none
        | some st => parse_loop env fuel { st with argctr := st.argctr + 1 }
      else some st

/-- The literal token `--`. -/
def sepTok : Str := ['-', '-']

/-- The literal token `-o`. -/
def oTok : Str := ['-', 'o']

/-- `fuse_opt_insert_arg(args, pos, arg)`: insert at position `pos`
(always `pos ≤ argc` here, matching the C assertion). -/
def insert_arg (l : List Str) (pos : Nat) (a : Str) : List Str :=
  l.take pos ++ a :: l.drop pos

/-- Finalization step 1 (`if (ctx->tmp_opts) ...`): when the merge
accumulator is set, insert `-o` and the merged string at positions 1
and 2 of the output, right after the program-name slot. -/
def with_merged (st : St) : List Str :=
  match st.opts with
  | some m => insert_arg (insert_arg st.out 1 oTok) 2 m
  | none => st.out

/-- Finalization step 2: if the option separator `--` is the last
output argument and `tmp_nonopt` still equals the output length, remove
it. -/
def strip_sep (nonopt : Nat) (out : List Str) : List Str :=
  if nonopt ≠ 0 ∧ nonopt = out.length ∧ out.getLast? = some sepTok then
    out.dropLast
  else out

/-- The result of a successful `fuse_opt_parse`: the caller's `args`
(replaced by the rebuilt vector on the main path, untouched on the
degenerate early-return path), the record, and the ghost trace. -/
structure ParseOut where
  args : Option FuseArgs
  data : Data
  trace : List Event

/-- `fuse_opt_parse(args, data, opts, proc)`: NULL `args`, NULL `argv`
or `argc == 0` succeed immediately leaving everything untouched;
otherwise the program-name slot is copied to the output, every further
token is dispatched, and the output is finalized (merge insertion,
trailing-`--` strip) and handed back.  `none` models the `-1` failure
return, where no output vector is produced. -/
def fuse_opt_parse (args : Option FuseArgs) (data : Data)
    (opts : List FuseOpt) (proc : Option Proc) : Option ParseOut :=
  match args with
  | none => some ⟨none, data, []⟩
  | some a =>
      match a.argv with
      | none => some ⟨some a, data, []⟩
      | some [] => some ⟨some a, data, []⟩
      | some (a0 :: toks) =>
          let env : Env := ⟨opts, proc, a0 :: toks⟩
          let st0 : St := ⟨data, [a0], 1, none, 0, []⟩
          match parse_loop env env.argc st0 with
          | none => none
          | some st =>
              some ⟨some ⟨some (strip_sep st.nonopt (with_merged st))⟩,
                    st.data, st.trace⟩

/-- The output argument vector of a parse result (the rebuilt command
line), for stating theorems about the textual output alone. -/
def outArgv (r : Option ParseOut) : Option (List Str) :=
  match r with
  | none => none
  | some r => match r.args with
              | some a => a.argv
              | none => none

/-! ## Derived, pure descriptions used to state the claims -/

/-- The pure decode underlying the `-o` group scan: the list of
sub-option strings, in dispatch order, that `group_loop` produces from
accumulator `d` and remaining group text `s`.  Same recursion structure
as `group_loop`, with dispatching stripped out. -/
def decode_group (d : Str) : Str → List Str
  | [] => [d]
  | c :: s =>
      if c = ',' then d :: decode_group [] s
      else if c = '\\' then
        match s with
        | c1 :: c2 :: c3 :: s3 =>
            if isOctHi c1 ∧ isOctLo c2 ∧ isOctLo c3 then
              decode_group (d ++ [octChar c1 c2 c3]) s3
            else
              decode_group (d ++ [c1]) (c2 :: c3 :: s3)
        | c1 :: s1 => decode_group (d ++ [c1]) s1
        | [] => [d ++ ['\\']]
      else decode_group (d ++ [c]) s

/-- Dispatch a list of already-decoded sub-options one at a time, the
reference against which `group_loop` is proved. -/
def dispatch_subopts (env : Env) : St → List Str → Option St
  | st, [] => some st
  | st, v :: vs =>
      match process_gopt env st v .GOPT_OPTION with
      | none => none
      | some st => dispatch_subopts env st vs

/-- The grouped sub-options recorded as kept, in order. -/
def keptOpts (tr : List Event) : List Str :=
  tr.filterMap (fun e => match e with | .keptOpt a => some a | _ => none)

/-- The spec-table entries recorded as fired, in order. -/
def firedOf (tr : List Event) : List FuseOpt :=
  tr.filterMap (fun e => match e with | .fired o => some o | _ => none)

/-- One `add_opt_common`-with-escaping step on the merge accumulator. -/
def merge_add (acc : Option Str) (sub : Str) : Option Str :=
  some (add_opt_common acc sub true)

/-- The merge accumulator resulting from keeping the sub-options `l`
in order, starting from `init`. -/
def merge_acc (init : Option Str) (l : List Str) : Option Str :=
  l.foldl merge_add init

/-- Escape every sub-option and join them with commas (the canonical
text of a merged group option). -/
def joinE : List Str → Str
  | [] => []
  | s :: rest => escOpt s ++ rest.flatMap (fun x => ',' :: escOpt x)

/-- The callback that keeps every option unchanged (returns `1`,
touches neither the record nor the output vector). -/
def keepAllProc : Proc := fun d _ _ o => (1, d, o)

/-! ## Reference description for parses with an empty spec table

The following two definitions restate, in the spec's vocabulary, what
parsing with an empty `SpecTable` and an always-keep callback does to
the command line; `fuse_opt_parse` is proved to refine them. -/

/-- The visible state of the reference description: output so far,
pending merged accumulator, recorded positional-region index. -/
structure RefSt where
  out : List Str
  opts : Option Str
  nonopt : Nat

/-- Modelled from the amended claim: walk the tokens after the program
name; positional-region tokens and tokens without the option prefix are
appended; a group-option marker takes its attached or following value
(failing when none exists), decodes it and folds every sub-option into
the pending merge; a literal `--` is appended and opens the positional
region, recording the output position after it; every other token is
appended verbatim. -/
def ref_step : RefSt → List Str → Option RefSt
  | r, [] => some r
  | r, a :: rest =>
      if r.nonopt ≠ 0 ∨ a.head? ≠ some '-' then
        ref_step { r with out := r.out ++ [a] } rest
      else if a.get? 1 = some 'o' then
        if (a.get? 2).isSome then
          ref_step { r with opts := merge_acc r.opts (decode_group [] (a.drop 2)) } rest
        else
          match rest with
          | v :: rest2 =>
              ref_step { r with opts := merge_acc r.opts (decode_group [] v) } rest2
          | [] => none
      else if a.get? 1 = some '-' ∧ a.get? 2 = none then
        ref_step { r with out := r.out ++ [a], nonopt := r.out.length + 1 } rest
      else
        ref_step { r with out := r.out ++ [a] } rest

/-- Modelled from the amended claim: the whole empty-table always-keep
parse — walk the tokens, then insert the pending merge (when any) right
after the program-name slot and strip a trailing `--` exactly when the
recorded positional index still equals the output length. -/
def empty_keep_ref (argv : List Str) : Option (List Str) :=
  match argv with
  | [] => none
  | a0 :: toks =>
      match ref_step ⟨[a0], none, 0⟩ toks with
      | none => none
      | some r =>
          some (strip_sep r.nonopt (match r.opts with
            | some m => insert_arg (insert_arg r.out 1 oTok) 2 m
            | none => r.out))

/-- A token the reference walk appends verbatim while still in the
option region: if it carries the option prefix, it is neither a
group-option marker nor the literal separator. -/
def selfKeep (a : Str) : Prop :=
  a.head? = some '-' →
    a.get? 1 ≠ some 'o' ∧ ¬(a.get? 1 = some '-' ∧ a.get? 2 = none)

/-! ## Unfolding equations -/

theorem group_loop_nil (env : Env) (st : St) (d : Str) :
    group_loop env st d [] = process_gopt env st d .GOPT_OPTION := rfl

theorem group_loop_cons (env : Env) (st : St) (d : Str) (c : Char) (s : Str) :
    group_loop env st d (c :: s) =
      if c = ',' then
        match process_gopt env st d .GOPT_OPTION with
        | none => none
        | some st1 => group_loop env st1 [] s
      else if c = '\\' then
        match s with
        | c1 :: c2 :: c3 :: s3 =>
            if isOctHi c1 ∧ isOctLo c2 ∧ isOctLo c3 then
              group_loop env st (d ++ [octChar c1 c2 c3]) s3
            else
              group_loop env st (d ++ [c1]) (c2 :: c3 :: s3)
        | c1 :: s1 => group_loop env st (d ++ [c1]) s1
        | [] => process_gopt env st (d ++ ['\\']) .GOPT_OPTION
      else group_loop env st (d ++ [c]) s := by
  rcases s with _ | ⟨c1, _ | ⟨c2, _ | ⟨c3, s3⟩⟩⟩
  · rw [group_loop.eq_4]
  · rw [group_loop.eq_3 env st d c c1 [] (by intro a b t ht; cases ht)]
  · rw [group_loop.eq_3 env st d c c1 [c2] (by intro a b t ht; cases ht)]
  · rw [group_loop.eq_2]

theorem decode_group_nil (d : Str) : decode_group d [] = [d] := rfl

theorem decode_group_cons (d : Str) (c : Char) (s : Str) :
    decode_group d (c :: s) =
      if c = ',' then d :: decode_group [] s
      else if c = '\\' then
        match s with
        | c1 :: c2 :: c3 :: s3 =>
            if isOctHi c1 ∧ isOctLo c2 ∧ isOctLo c3 then
              decode_group (d ++ [octChar c1 c2 c3]) s3
            else
              decode_group (d ++ [c1]) (c2 :: c3 :: s3)
        | c1 :: s1 => decode_group (d ++ [c1]) s1
        | [] => [d ++ ['\\']]
      else decode_group (d ++ [c]) s := by
  rcases s with _ | ⟨c1, _ | ⟨c2, _ | ⟨c3, s3⟩⟩⟩
  · rw [decode_group.eq_4]
  · rw [decode_group.eq_3 d c c1 [] (by intro a b t ht; cases ht)]
  · rw [decode_group.eq_3 d c c1 [c2] (by intro a b t ht; cases ht)]
  · rw [decode_group.eq_2]

/-! ## Trace and accumulator helper lemmas -/

theorem keptOpts_append (a b : List Event) :
    keptOpts (a ++ b) = keptOpts a ++ keptOpts b := by
  simp [keptOpts]

theorem firedOf_append (a b : List Event) :
    firedOf (a ++ b) = firedOf a ++ firedOf b := by
  simp [firedOf]

theorem merge_acc_append (i : Option Str) (a b : List Str) :
    merge_acc i (a ++ b) = merge_acc (merge_acc i a) b := by
  simp [merge_acc]

theorem merge_acc_nil (i : Option Str) : merge_acc i [] = i := rfl

/-- Keeping at least one sub-option always leaves the accumulator set. -/
theorem merge_acc_isSome (l : List Str) (i : Option Str) (h : l ≠ []) :
    (merge_acc i l).isSome := by
  induction l generalizing i with
  | nil => exact absurd rfl h
  | cons a l ih =>
      cases l with
      | nil => simp [merge_acc, merge_add]
      | cons b l => exact ih (merge_add i a) (by simp)

/-! ## Step specifications: how each routine of `fuse_opt.c` changes the
context.  Each lemma exhibits the trace suffix `δ` a successful call
appends, together with how the merge accumulator, the input cursor and
the positional index relate to it. -/

theorem call_proc_spec {env : Env} {st : St} {arg : Str} {key : Int}
    {typ : GoptType} {st' : St}
    (h : call_proc env st arg key typ = some st') :
    ∃ δ, st'.trace = st.trace ++ δ ∧ firedOf δ = [] ∧
      st'.opts = merge_acc st.opts (keptOpts δ) ∧
      st'.argctr = st.argctr ∧ st'.nonopt = st.nonopt := by
  simp only [call_proc] at h
  split at h
  · cases h
    exact ⟨[], by simp [firedOf, keptOpts, merge_acc]⟩
  · split at h
    next p hp =>
      split at h
      · split at h
        · exact absurd h (by simp)
        · split at h
          · cases h
            exact ⟨[.procCall arg key (p st.data arg key st.out).1],
              by simp [firedOf, keptOpts, merge_acc]⟩
          · cases typ <;> cases h
            · exact ⟨[.procCall arg key (p st.data arg key st.out).1],
                by simp [firedOf, keptOpts, merge_acc]⟩
            · exact ⟨[.procCall arg key (p st.data arg key st.out).1, .keptOpt arg],
                by simp [firedOf, keptOpts, merge_acc, merge_add]⟩
      · cases typ <;> cases h
        · exact ⟨[], by simp [firedOf, keptOpts, merge_acc]⟩
        · exact ⟨[.keptOpt arg], by simp [firedOf, keptOpts, merge_acc, merge_add]⟩
    next hp =>
      cases typ <;> cases h
      · exact ⟨[], by simp [firedOf, keptOpts, merge_acc]⟩
      · exact ⟨[.keptOpt arg], by simp [firedOf, keptOpts, merge_acc, merge_add]⟩

theorem process_opt_param_spec {st : St} {off : Nat} {format param : Str}
    {st' : St} (h : process_opt_param st off format param = some st') :
    st'.trace = st.trace ∧ st'.opts = st.opts ∧ st'.out = st.out ∧
      st'.argctr = st.argctr ∧ st'.nonopt = st.nonopt := by
  simp only [process_opt_param] at h
  split at h
  · cases h; simp
  · split at h
    · cases h; simp
    · cases h

theorem process_opt_spec {env : Env} {st : St} {o : FuseOpt} {sep : Nat}
    {arg : Str} {typ : GoptType} {st' : St}
    (h : process_opt env st o sep arg typ = some st') :
    ∃ δ, st'.trace = st.trace ++ δ ∧ firedOf δ = [o] ∧
      st'.opts = merge_acc st.opts (keptOpts δ) ∧
      st'.argctr = st.argctr ∧ st'.nonopt = st.nonopt := by
  simp only [process_opt] at h
  split at h
  · obtain ⟨δ, h1, h2, h3, h4, h5⟩ := call_proc_spec h
    refine ⟨.fired o :: δ, ?_, ?_, ?_, by simpa using h4, by simpa using h5⟩
    · simpa using h1
    · simpa [firedOf] using h2
    · simpa [keptOpts] using h3
  · split at h
    · obtain ⟨h1, h2, h3, h4, h5⟩ := process_opt_param_spec h
      exact ⟨[.fired o], by simp [h1], by simp [firedOf],
        by simp [h2, keptOpts, merge_acc], by simpa using h4, by simpa using h5⟩
    · cases h
      exact ⟨[.fired o], by simp, by simp [firedOf],
        by simp [keptOpts, merge_acc], by simp, by simp⟩

/-- When `find_opt` finds nothing, no entry of the table matches. -/
theorem find_opt_none_filter {l : List FuseOpt} {arg : Str}
    (h : find_opt l arg = none) :
    l.filter (fun o => (match_template o.templ arg).isSome) = [] := by
  induction l with
  | nil => rfl
  | cons o os ih =>
      simp only [find_opt] at h
      split at h
      · cases h
      · next hm =>
          simp only [List.filter_cons]
          rw [if_neg (by simpa using hm)]
          exact ih h

theorem gopt_chain_spec {env : Env} {arg : Str} {typ : GoptType} :
    ∀ {l : List FuseOpt} {st st' : St},
    gopt_chain env arg typ st l = some st' →
    ∃ δ, st'.trace = st.trace ++ δ ∧
      firedOf δ = l.filter (fun o => (match_template o.templ arg).isSome) ∧
      st'.opts = merge_acc st.opts (keptOpts δ) ∧
      st.argctr ≤ st'.argctr ∧ st'.nonopt = st.nonopt := by
  intro l
  induction l with
  | nil =>
      intro st st' h
      cases h
      exact ⟨[], by simp [firedOf, keptOpts, merge_acc]⟩
  | cons o os ih =>
      intro st st' h
      simp only [gopt_chain] at h
      split at h
      · next hm =>
          obtain ⟨δ, h1, h2, h3, h4, h5⟩ := ih h
          exact ⟨δ, h1, by simp [List.filter_cons, hm, h2], h3, h4, h5⟩
      · next sep hm =>
          have hmatch : (match_template o.templ arg).isSome = true := by
            simp [hm]
          split at h
          · split at h
            · cases h
            · obtain ⟨st1, hst1, hrest⟩ :
                  ∃ st1, process_opt env { st with argctr := st.argctr + 1 } o sep
                    (arg.take sep ++ env.argvAt (st.argctr + 1)) typ = some st1 ∧
                    gopt_chain env arg typ st1 os = some st' := by
                cases hpo : process_opt env { st with argctr := st.argctr + 1 } o sep
                    (arg.take sep ++ env.argvAt (st.argctr + 1)) typ with
                | none => rw [hpo] at h; cases h
                | some st1 => rw [hpo] at h; exact ⟨st1, rfl, h⟩
              obtain ⟨δ1, g1, g2, g3, g4, g5⟩ := process_opt_spec hst1
              obtain ⟨δ2, k1, k2, k3, k4, k5⟩ := ih hrest
              refine ⟨δ1 ++ δ2, ?_, ?_, ?_, ?_, ?_⟩
              · rw [k1, g1]; simp
              · simp [firedOf_append, g2, k2, List.filter_cons, hmatch]
              · rw [k3, g3]; simp [keptOpts_append, merge_acc_append]
              · have : st1.argctr = st.argctr + 1 := by simpa using g4
                omega
              · rw [k5, g5]
          · obtain ⟨st1, hst1, hrest⟩ :
                ∃ st1, process_opt env st o sep arg typ = some st1 ∧
                  gopt_chain env arg typ st1 os = some st' := by
              cases hpo : process_opt env st o sep arg typ with
              | none => rw [hpo] at h; cases h
              | some st1 => rw [hpo] at h; exact ⟨st1, rfl, h⟩
            obtain ⟨δ1, g1, g2, g3, g4, g5⟩ := process_opt_spec hst1
            obtain ⟨δ2, k1, k2, k3, k4, k5⟩ := ih hrest
            refine ⟨δ1 ++ δ2, ?_, ?_, ?_, ?_, ?_⟩
            · rw [k1, g1]; simp
            · simp [firedOf_append, g2, k2, List.filter_cons, hmatch]
            · rw [k3, g3]; simp [keptOpts_append, merge_acc_append]
            · omega
            · rw [k5, g5]

theorem process_gopt_spec {env : Env} {st : St} {arg : Str} {typ : GoptType}
    {st' : St} (h : process_gopt env st arg typ = some st') :
    ∃ δ, st'.trace = st.trace ++ δ ∧
      firedOf δ = env.opt.filter (fun o => (match_template o.templ arg).isSome) ∧
      st'.opts = merge_acc st.opts (keptOpts δ) ∧
      st.argctr ≤ st'.argctr ∧ st'.nonopt = st.nonopt := by
  simp only [process_gopt] at h
  split at h
  · next hf =>
      obtain ⟨δ, h1, h2, h3, h4, h5⟩ := call_proc_spec h
      exact ⟨δ, h1, by rw [h2, find_opt_none_filter hf], h3, h4.ge, h5⟩
  · exact gopt_chain_spec h

/-- The weaker step description used where the fired entries do not
matter. -/
def StepsTo (st st' : St) : Prop :=
  (∃ δ, st'.trace = st.trace ++ δ ∧ st'.opts = merge_acc st.opts (keptOpts δ))
    ∧ st.argctr ≤ st'.argctr ∧ st.nonopt ≤ st'.nonopt

theorem StepsTo.rfl {st : St} : StepsTo st st :=
  ⟨⟨[], by simp [keptOpts, merge_acc]⟩, le_refl _, le_refl _⟩

theorem StepsTo.trans {a b c : St} (h1 : StepsTo a b) (h2 : StepsTo b c) :
    StepsTo a c := by
  obtain ⟨⟨δ1, t1, o1⟩, a1, n1⟩ := h1
  obtain ⟨⟨δ2, t2, o2⟩, a2, n2⟩ := h2
  refine ⟨⟨δ1 ++ δ2, ?_, ?_⟩, le_trans a1 a2, le_trans n1 n2⟩
  · rw [t2, t1]; simp
  · rw [o2, o1, keptOpts_append, merge_acc_append]

theorem process_gopt_steps {env : Env} {st : St} {arg : Str} {typ : GoptType}
    {st' : St} (h : process_gopt env st arg typ = some st') : StepsTo st st' := by
  obtain ⟨δ, h1, _, h3, h4, h5⟩ := process_gopt_spec h
  exact ⟨⟨δ, h1, h3⟩, h4, h5.ge⟩

theorem group_loop_steps {env : Env} : ∀ (st : St) (d v : Str) (st' : St),
    group_loop env st d v = some st' → StepsTo st st' := by
  intro st d v
  induction st, d, v using group_loop.induct with
  | env => exact env
  | case1 st d =>
      intro st' h
      exact process_gopt_steps h
  | case2 st d s hnone =>
      intro st' h
      rw [group_loop_cons] at h
      simp only [reduceIte, hnone] at h
      cases h
  | case3 st d s st1 hsome ih =>
      intro st' h
      rw [group_loop_cons] at h
      simp only [reduceIte, hsome] at h
      exact (process_gopt_steps hsome).trans (ih st' h)
  | case4 st d c1 c2 c3 s3 hoct hb ih =>
      intro st' h
      rw [group_loop_cons] at h
      simp only [reduceIte, if_pos hoct] at h
      exact ih st' h
  | case5 st d c1 c2 c3 s3 hoct hb ih =>
      intro st' h
      rw [group_loop_cons] at h
      simp only [reduceIte, if_neg hoct] at h
      exact ih st' h
  | case6 st d c1 s1 hs hb ih =>
      intro st' h
      rw [group_loop_cons] at h
      rcases s1 with _ | ⟨x, _ | ⟨y, t⟩⟩
      · simp only [reduceIte] at h
        exact ih st' h
      · simp only [reduceIte] at h
        exact ih st' h
      · exact (hs x y t rfl).elim
  | case7 st d hb =>
      intro st' h
      rw [group_loop_cons] at h
      simp only [reduceIte] at h
      exact process_gopt_steps h
  | case8 st d c s hc hb ih =>
      intro st' h
      rw [group_loop_cons] at h
      simp only [if_neg hc, if_neg hb] at h
      exact ih st' h

theorem process_one_steps {env : Env} {st st' : St}
    (h : process_one env st = some st') : StepsTo st st' := by
  simp only [process_one] at h
  split at h
  · obtain ⟨δ, h1, _, h3, h4, h5⟩ := call_proc_spec h
    exact ⟨⟨δ, h1, h3⟩, h4.ge, h5.ge⟩
  · next hpos =>
    split at h
    · split at h
      · exact group_loop_steps _ _ _ _ h
      · split at h
        · refine StepsTo.trans (b := { st with argctr := st.argctr + 1 })
            ⟨⟨[], by simp [keptOpts, merge_acc]⟩, by simp, le_refl _⟩ ?_
          exact group_loop_steps _ _ _ _ h
        · cases h
    · split at h
      · cases h
        have hz : st.nonopt = 0 := by
          by_contra hnz
          exact hpos (Or.inl hnz)
        refine ⟨⟨[], by simp [keptOpts, merge_acc]⟩, le_refl _, ?_⟩
        rw [hz]; exact Nat.zero_le _
      · obtain ⟨δ, h1, _, h3, h4, h5⟩ := process_gopt_spec h
        exact ⟨⟨δ, h1, h3⟩, h4, h5.ge⟩

/-! ## The group scan dispatches exactly the decoded sub-options -/

/-- `group_loop` is the decode of `decode_group` interleaved with eager
dispatch: running it equals dispatching the pure decode's sub-options
one at a time. -/
theorem group_loop_eq_dispatch {env : Env} : ∀ (st : St) (d v : Str),
    group_loop env st d v = dispatch_subopts env st (decode_group d v) := by
  intro st d v
  induction st, d, v using group_loop.induct with
  | env => exact env
  | case1 st d =>
      rw [group_loop_nil, decode_group_nil]
      cases hg : process_gopt env st d .GOPT_OPTION with
      | none => simp [dispatch_subopts, hg]
      | some st1 => simp [dispatch_subopts, hg]
  | case2 st d s hnone =>
      rw [group_loop_cons, decode_group_cons]
      simp only [reduceIte, hnone, dispatch_subopts]
  | case3 st d s st1 hsome ih =>
      rw [group_loop_cons, decode_group_cons]
      simp only [reduceIte, hsome, dispatch_subopts]
      exact ih
  | case4 st d c1 c2 c3 s3 hoct hb ih =>
      rw [group_loop_cons, decode_group_cons]
      simp only [reduceIte, if_pos hoct]
      exact ih
  | case5 st d c1 c2 c3 s3 hoct hb ih =>
      rw [group_loop_cons, decode_group_cons]
      simp only [reduceIte, if_neg hoct]
      exact ih
  | case6 st d c1 s1 hs hb ih =>
      rw [group_loop_cons, decode_group_cons]
      rcases s1 with _ | ⟨x, _ | ⟨y, t⟩⟩
      · simpa only [reduceIte] using ih
      · simpa only [reduceIte] using ih
      · exact (hs x y t rfl).elim
  | case7 st d hb =>
      rw [group_loop_cons, decode_group_cons]
      simp only [reduceIte]
      cases hg : process_gopt env st (d ++ ['\\']) .GOPT_OPTION with
      | none => simp [dispatch_subopts, hg]
      | some st1 => simp [dispatch_subopts, hg]
  | case8 st d c s hc hb ih =>
      rw [group_loop_cons, decode_group_cons]
      simp only [if_neg hc, if_neg hb]
      exact ih

/-! ## Exact computation under an empty spec table with the always-keep
callback -/

theorem call_proc_keepAll_flag {env : Env} {st : St} {a : Str} {key : Int}
    (hproc : env.proc = some keepAllProc) (hk4 : key ≠ FUSE_OPT_KEY_DISCARD)
    (hk3 : key ≠ FUSE_OPT_KEY_KEEP) :
    call_proc env st a key .GOPT_FLAG =
      some { st with out := st.out ++ [a],
                     trace := st.trace ++ [.procCall a key 1] } := by
  rw [call_proc, if_neg hk4, hproc]
  simp only [ne_eq, hk3, not_false_eq_true, if_pos, keepAllProc]
  norm_num

theorem call_proc_keepAll_opt {env : Env} {st : St} {a : Str} {key : Int}
    (hproc : env.proc = some keepAllProc) (hk4 : key ≠ FUSE_OPT_KEY_DISCARD)
    (hk3 : key ≠ FUSE_OPT_KEY_KEEP) :
    call_proc env st a key .GOPT_OPTION =
      some { st with opts := some (add_opt_common st.opts a true),
                     trace := st.trace ++ [.procCall a key 1, .keptOpt a] } := by
  rw [call_proc, if_neg hk4, hproc]
  simp only [ne_eq, hk3, not_false_eq_true, if_pos, keepAllProc]
  norm_num

theorem process_gopt_empty {env : Env} {st : St} {a : Str} {typ : GoptType}
    (hopt : env.opt = []) :
    process_gopt env st a typ = call_proc env st a FUSE_OPT_KEY_OPT typ := by
  simp [process_gopt, hopt, find_opt]

theorem process_gopt_keepAll_empty_opt {env : Env} {st : St} {a : Str}
    (hopt : env.opt = []) (hproc : env.proc = some keepAllProc) :
    process_gopt env st a .GOPT_OPTION =
      some { st with opts := some (add_opt_common st.opts a true),
                     trace := st.trace ++ [.procCall a FUSE_OPT_KEY_OPT 1,
                                           .keptOpt a] } := by
  rw [process_gopt_empty hopt]
  exact call_proc_keepAll_opt hproc (by decide) (by decide)

theorem process_gopt_keepAll_empty_flag {env : Env} {st : St} {a : Str}
    (hopt : env.opt = []) (hproc : env.proc = some keepAllProc) :
    process_gopt env st a .GOPT_FLAG =
      some { st with out := st.out ++ [a],
                     trace := st.trace ++ [.procCall a FUSE_OPT_KEY_OPT 1] } := by
  rw [process_gopt_empty hopt]
  exact call_proc_keepAll_flag hproc (by decide) (by decide)

theorem dispatch_keepAll_empty {env : Env}
    (hopt : env.opt = []) (hproc : env.proc = some keepAllProc) :
    ∀ (l : List Str) (st : St), ∃ tr,
      dispatch_subopts env st l =
        some { st with opts := merge_acc st.opts l, trace := tr } := by
  intro l
  induction l with
  | nil =>
      intro st
      exact ⟨st.trace, rfl⟩
  | cons a l ih =>
      intro st
      obtain ⟨tr, htr⟩ := ih
        { st with opts := some (add_opt_common st.opts a true),
                  trace := st.trace ++ [.procCall a FUSE_OPT_KEY_OPT 1,
                                        .keptOpt a] }
      refine ⟨tr, ?_⟩
      have hstep : dispatch_subopts env st (a :: l) =
          dispatch_subopts env
            { st with opts := some (add_opt_common st.opts a true),
                      trace := st.trace ++ [.procCall a FUSE_OPT_KEY_OPT 1,
                                            .keptOpt a] } l := by
        simp only [dispatch_subopts, process_gopt_keepAll_empty_opt hopt hproc]
      rw [hstep, htr]
      rfl

theorem group_loop_keepAll_empty {env : Env}
    (hopt : env.opt = []) (hproc : env.proc = some keepAllProc)
    (st : St) (d v : Str) : ∃ tr,
    group_loop env st d v =
      some { st with opts := merge_acc st.opts (decode_group d v), trace := tr } := by
  rw [group_loop_eq_dispatch]
  exact dispatch_keepAll_empty hopt hproc _ st

/-! ## Branch equations for `process_one` -/

theorem process_one_positional {env : Env} {st : St}
    (hc : st.nonopt ≠ 0 ∨ (env.argvAt st.argctr).head? ≠ some '-') :
    process_one env st =
      call_proc env st (env.argvAt st.argctr) FUSE_OPT_KEY_NONOPT .GOPT_FLAG := by
  simp only [process_one]
  rw [if_pos hc]

theorem process_one_group_inline {env : Env} {st : St}
    (hc : ¬(st.nonopt ≠ 0 ∨ (env.argvAt st.argctr).head? ≠ some '-'))
    (ho : (env.argvAt st.argctr).get? 1 = some 'o')
    (hv : ((env.argvAt st.argctr).get? 2).isSome) :
    process_one env st = group_loop env st [] ((env.argvAt st.argctr).drop 2) := by
  simp only [process_one]
  rw [if_neg hc, if_pos ho, if_pos hv]

theorem process_one_group_next {env : Env} {st : St}
    (hc : ¬(st.nonopt ≠ 0 ∨ (env.argvAt st.argctr).head? ≠ some '-'))
    (ho : (env.argvAt st.argctr).get? 1 = some 'o')
    (hv : ¬((env.argvAt st.argctr).get? 2).isSome)
    (hn : st.argctr + 1 < env.argc) :
    process_one env st =
      group_loop env { st with argctr := st.argctr + 1 } []
        (env.argvAt (st.argctr + 1)) := by
  simp only [process_one]
  rw [if_neg hc, if_pos ho, if_neg hv, if_pos hn]

theorem process_one_group_missing {env : Env} {st : St}
    (hc : ¬(st.nonopt ≠ 0 ∨ (env.argvAt st.argctr).head? ≠ some '-'))
    (ho : (env.argvAt st.argctr).get? 1 = some 'o')
    (hv : ¬((env.argvAt st.argctr).get? 2).isSome)
    (hn : ¬ st.argctr + 1 < env.argc) :
    process_one env st = none := by
  simp only [process_one]
  rw [if_neg hc, if_pos ho, if_neg hv, if_neg hn]

theorem process_one_sep {env : Env} {st : St}
    (hc : ¬(st.nonopt ≠ 0 ∨ (env.argvAt st.argctr).head? ≠ some '-'))
    (ho : ¬(env.argvAt st.argctr).get? 1 = some 'o')
    (hd : (env.argvAt st.argctr).get? 1 = some '-' ∧
          (env.argvAt st.argctr).get? 2 = none) :
    process_one env st =
      some { st with out := st.out ++ [env.argvAt st.argctr],
                     nonopt := st.out.length + 1 } := by
  simp only [process_one]
  rw [if_neg hc, if_neg ho, if_pos hd]

theorem process_one_flag {env : Env} {st : St}
    (hc : ¬(st.nonopt ≠ 0 ∨ (env.argvAt st.argctr).head? ≠ some '-'))
    (ho : ¬(env.argvAt st.argctr).get? 1 = some 'o')
    (hd : ¬((env.argvAt st.argctr).get? 1 = some '-' ∧
            (env.argvAt st.argctr).get? 2 = none)) :
    process_one env st = process_gopt env st (env.argvAt st.argctr) .GOPT_FLAG := by
  simp only [process_one]
  rw [if_neg hc, if_neg ho, if_neg hd]

theorem ref_step_nil (r : RefSt) : ref_step r [] = some r := rfl

theorem ref_step_cons (r : RefSt) (a : Str) (rest : List Str) :
    ref_step r (a :: rest) =
      if r.nonopt ≠ 0 ∨ a.head? ≠ some '-' then
        ref_step { r with out := r.out ++ [a] } rest
      else if a.get? 1 = some 'o' then
        if (a.get? 2).isSome then
          ref_step { r with opts := merge_acc r.opts (decode_group [] (a.drop 2)) } rest
        else
          match rest with
          | v :: rest2 =>
              ref_step { r with opts := merge_acc r.opts (decode_group [] v) } rest2
          | [] => none
      else if a.get? 1 = some '-' ∧ a.get? 2 = none then
        ref_step { r with out := r.out ++ [a], nonopt := r.out.length + 1 } rest
      else ref_step { r with out := r.out ++ [a] } rest := by
  rcases rest with _ | ⟨v, rest2⟩
  · rw [ref_step.eq_3]
  · rw [ref_step.eq_2]

/-- `argv[i] :: argv[(i+1)..]` decomposition of the remaining input. -/
theorem drop_cons_getD (l : List Str) (i : Nat) (h : i < l.length) :
    l.drop i = l.getD i [] :: l.drop (i + 1) := by
  induction l generalizing i with
  | nil => simp at h
  | cons a t ih =>
      cases i with
      | zero => simp [List.getD]
      | succ j =>
          have := ih j (by simpa using h)
          simpa [List.getD] using this

theorem parse_loop_steps {env : Env} : ∀ (fuel : Nat) (st st' : St),
    parse_loop env fuel st = some st' → StepsTo st st' := by
  intro fuel
  induction fuel with
  | zero =>
      intro st st' h
      simp only [parse_loop] at h
      split at h
      · cases h
      · cases h; exact StepsTo.rfl
  | succ fuel ih =>
      intro st st' h
      simp only [parse_loop] at h
      split at h
      · cases hp : process_one env st with
        | none => rw [hp] at h; cases h
        | some st1 =>
            rw [hp] at h
            refine (process_one_steps hp).trans (StepsTo.trans ?_ (ih _ _ h))
            exact ⟨⟨[], by simp [keptOpts, merge_acc]⟩, by simp, le_refl _⟩
      · cases h; exact StepsTo.rfl

/-! ## Simulation against the reference description (empty table,
always-keep callback) -/

theorem parse_ref_sim {env : Env} (hopt : env.opt = [])
    (hproc : env.proc = some keepAllProc) :
    ∀ (fuel : Nat) (st : St) (r : RefSt),
      st.out = r.out → st.opts = r.opts → st.nonopt = r.nonopt →
      env.argc ≤ st.argctr + fuel →
      (parse_loop env fuel st = none ∧
        ref_step r (env.argv.drop st.argctr) = none) ∨
      (∃ st' r', parse_loop env fuel st = some st' ∧
        ref_step r (env.argv.drop st.argctr) = some r' ∧
        st'.out = r'.out ∧ st'.opts = r'.opts ∧ st'.nonopt = r'.nonopt) := by
  intro fuel
  induction fuel with
  | zero =>
      intro st r h1 h2 h3 hle
      right
      have hnl : ¬ st.argctr < env.argc := by omega
      have hdrop : env.argv.drop st.argctr = [] :=
        List.drop_eq_nil_of_le (by simpa [Env.argc] using hle)
      refine ⟨st, r, ?_, ?_, h1, h2, h3⟩
      · simp [parse_loop, hnl]
      · rw [hdrop, ref_step_nil]
  | succ fuel ih =>
      intro st r h1 h2 h3 hle
      by_cases hlt : st.argctr < env.argc
      case neg =>
        right
        have hdrop : env.argv.drop st.argctr = [] :=
          List.drop_eq_nil_of_le (by simp [Env.argc] at hlt ⊢; omega)
        refine ⟨st, r, ?_, ?_, h1, h2, h3⟩
        · simp [parse_loop, hlt]
        · rw [hdrop, ref_step_nil]
      case pos =>
        have hdrop : env.argv.drop st.argctr =
            env.argvAt st.argctr :: env.argv.drop (st.argctr + 1) :=
          drop_cons_getD env.argv st.argctr hlt
        rw [hdrop, ref_step_cons]
        simp only [parse_loop, if_pos hlt]
        by_cases hb1 : st.nonopt ≠ 0 ∨ (env.argvAt st.argctr).head? ≠ some '-'
        · have hb1r : r.nonopt ≠ 0 ∨ (env.argvAt st.argctr).head? ≠ some '-' := by
            rwa [← h3]
          rw [if_pos hb1r,
            process_one_positional hb1,
            call_proc_keepAll_flag hproc (by decide) (by decide)]
          exact ih _ { r with out := r.out ++ [env.argvAt st.argctr] }
            (by simp [h1]) (by simp [h2]) (by simp [h3]) (by simp; omega)
        · have hb1r : ¬(r.nonopt ≠ 0 ∨ (env.argvAt st.argctr).head? ≠ some '-') := by
            rwa [← h3]
          rw [if_neg hb1r]
          by_cases ho : (env.argvAt st.argctr).get? 1 = some 'o'
          · rw [if_pos ho]
            by_cases hv : ((env.argvAt st.argctr).get? 2).isSome
            · rw [if_pos hv, process_one_group_inline hb1 ho hv]
              obtain ⟨tr, htr⟩ := group_loop_keepAll_empty hopt hproc st []
                ((env.argvAt st.argctr).drop 2)
              rw [htr]
              exact ih _
                { r with opts := (merge_acc r.opts (decode_group [] ((env.argvAt st.argctr).drop 2))) }
                (by simp [h1]) (by simp [h2]) (by simp [h3]) (by simp; omega)
            · rw [if_neg hv]
              by_cases hn : st.argctr + 1 < env.argc
              · have hdrop2 : env.argv.drop (st.argctr + 1) =
                    env.argvAt (st.argctr + 1) :: env.argv.drop (st.argctr + 2) :=
                  drop_cons_getD env.argv (st.argctr + 1) hn
                rw [hdrop2]
                rw [process_one_group_next hb1 ho hv hn]
                obtain ⟨tr, htr⟩ := group_loop_keepAll_empty hopt hproc
                  { st with argctr := st.argctr + 1 } []
                  (env.argvAt (st.argctr + 1))
                rw [htr]
                exact ih _
                  { r with opts := (merge_acc r.opts (decode_group [] (env.argvAt (st.argctr + 1)))) }
                  (by simp [h1]) (by simp [h2]) (by simp [h3]) (by simp; omega)
              · left
                have hdrop2 : env.argv.drop (st.argctr + 1) = [] :=
                  List.drop_eq_nil_of_le (by simp [Env.argc] at hn ⊢; omega)
                rw [hdrop2, process_one_group_missing hb1 ho hv hn]
                exact ⟨rfl, rfl⟩
          · rw [if_neg ho]
            by_cases hd : (env.argvAt st.argctr).get? 1 = some '-' ∧
                (env.argvAt st.argctr).get? 2 = none
            · rw [if_pos hd, process_one_sep hb1 ho hd]
              exact ih _ ⟨r.out ++ [env.argvAt st.argctr], r.opts, r.out.length + 1⟩
                (by simp [h1]) (by simp [h2]) (by simp [h1, h3]) (by simp; omega)
            · rw [if_neg hd, process_one_flag hb1 ho hd,
                process_gopt_keepAll_empty_flag hopt hproc]
              exact ih _ { r with out := r.out ++ [env.argvAt st.argctr] }
                (by simp [h1]) (by simp [h2]) (by simp [h3]) (by simp; omega)

/-- Unfolding of `fuse_opt_parse` on the main (non-degenerate) path. -/
theorem fuse_opt_parse_main (a0 : Str) (toks : List Str) (data : Data)
    (opts : List FuseOpt) (proc : Option Proc) :
    fuse_opt_parse (some ⟨some (a0 :: toks)⟩) data opts proc =
      match parse_loop ⟨opts, proc, a0 :: toks⟩ (a0 :: toks).length
          ⟨data, [a0], 1, none, 0, []⟩ with
      | none => none
      | some st =>
          some ⟨some ⟨some (strip_sep st.nonopt (with_merged st))⟩,
                st.data, st.trace⟩ := rfl

/-- A failing `process_one` under the cursor makes the whole loop — and
with it the whole parse — fail. -/
theorem parse_loop_of_process_one_none {env : Env} {st : St} (fuel : Nat)
    (h1 : st.argctr < env.argc) (h2 : process_one env st = none) :
    parse_loop env fuel st = none := by
  cases fuel with
  | zero => simp [parse_loop, h1]
  | succ fuel => simp [parse_loop, h1, h2]

/-- The chained entry scan fails with MissingArgument when the first
matching entry is a space-separated template whose value is neither in
the token nor available as a following input argument. -/
theorem gopt_chain_missing {env : Env} {arg : Str} {typ : GoptType}
    {o : FuseOpt} {sep : Nat} :
    ∀ {l : List FuseOpt} {st : St},
    find_opt l arg = some o → match_template o.templ arg = some sep →
    sep ≠ 0 → o.templ.get? sep = some ' ' → arg.get? sep = none →
    st.argctr + 1 ≥ env.argc →
    gopt_chain env arg typ st l = none := by
  intro l
  induction l with
  | nil => intro st hf; cases hf
  | cons o1 os ih =>
      intro st hf hm hs1 hs2 hs3 hmiss
      simp only [find_opt] at hf
      split at hf
      · next hm1 =>
          cases hf
          simp only [gopt_chain, hm]
          rw [if_pos ⟨hs1, hs2, hs3⟩, if_pos hmiss]
      · next hm1 =>
          simp only [gopt_chain]
          split
          · exact ih hf hm hs1 hs2 hs3 hmiss
          · next hm2 => exact absurd (by simp [hm2]) hm1

/-- Same at the `process_gopt` level. -/
theorem process_gopt_missing {env : Env} {st : St} {arg : Str}
    {typ : GoptType} {o : FuseOpt} {sep : Nat}
    (hf : find_opt env.opt arg = some o)
    (hm : match_template o.templ arg = some sep)
    (hs1 : sep ≠ 0) (hs2 : o.templ.get? sep = some ' ')
    (hs3 : arg.get? sep = none) (hmiss : st.argctr + 1 ≥ env.argc) :
    process_gopt env st arg typ = none := by
  simp only [process_gopt, hf]
  exact gopt_chain_missing hf hm hs1 hs2 hs3 hmiss

/-- The finalization insert places `-o` and the merged string at
positions 1 and 2, right after the program-name slot. -/
theorem with_merged_some {st : St} {m : Str} (h : st.opts = some m) :
    with_merged st = st.out.take 1 ++ oTok :: m :: st.out.drop 1 := by
  simp only [with_merged, h, insert_arg]
  cases st.out with
  | nil => rfl
  | cons x xs => rfl

theorem with_merged_none {st : St} (h : st.opts = none) :
    with_merged st = st.out := by
  simp [with_merged, h]

theorem with_merged_length {st : St} {m : Str} (h : st.opts = some m) :
    (with_merged st).length = st.out.length + 2 := by
  rw [with_merged_some h]
  cases st.out <;> simp

/-- `fuse_opt_parse` with the empty spec table and the always-keep
callback computes exactly the reference description
`empty_keep_ref`. -/
theorem empty_keep_refines (a0 : Str) (toks : List Str) (data : Data) :
    outArgv (fuse_opt_parse (some ⟨some (a0 :: toks)⟩) data []
      (some keepAllProc)) = empty_keep_ref (a0 :: toks) := by
  rw [fuse_opt_parse_main]
  have hsim := @parse_ref_sim ⟨[], some keepAllProc, a0 :: toks⟩ rfl rfl
    (a0 :: toks).length ⟨data, [a0], 1, none, 0, []⟩ ⟨[a0], none, 0⟩
    rfl rfl rfl (by simp [Env.argc])
  rcases hsim with ⟨hp, hr⟩ | ⟨st', r', hp, hr, e1, e2, e3⟩
  · simp only [List.drop_succ_cons, List.drop_zero] at hr
    rw [hp]
    simp only [empty_keep_ref, hr]
    rfl
  · simp only [List.drop_succ_cons, List.drop_zero] at hr
    rw [hp]
    simp only [empty_keep_ref, hr, outArgv, with_merged, e1, e2, e3]

/-! ## Escape/decode round trip -/

theorem escOpt_nil : escOpt [] = [] := rfl

theorem escOpt_cons (c : Char) (s : Str) :
    escOpt (c :: s) =
      (if c = ',' ∨ c = '\\' then ['\\', c] else [c]) ++ escOpt s := by
  simp only [escOpt, List.flatMap_cons]

theorem escOpt_ne_nil {s : Str} (h : s ≠ []) : escOpt s ≠ [] := by
  cases s with
  | nil => exact absurd rfl h
  | cons c t =>
      rw [escOpt_cons]
      split <;> simp

theorem add_opt_true (opts : Option Str) (s : Str) :
    add_opt_common opts s true =
      (if (opts.getD []).length ≠ 0 then opts.getD [] ++ [','] else []) ++
        escOpt s := by
  simp [add_opt_common, escOpt]

theorem add_opt_true_nil {opts : Option Str} (s : Str)
    (h : opts = none ∨ opts = some []) :
    add_opt_common opts s true = escOpt s := by
  rcases h with rfl | rfl <;> simp [add_opt_true]

theorem add_opt_true_ne {j : Str} (s : Str) (h : j ≠ []) :
    add_opt_common (some j) s true = j ++ ',' :: escOpt s := by
  rw [add_opt_true]
  simp [h]

/-- Folding more sub-options onto a nonempty accumulator appends
comma-separated escaped text. -/
theorem merge_acc_ne : ∀ (S : List Str) (j : Str), j ≠ [] →
    merge_acc (some j) S =
      some (j ++ S.flatMap (fun x => ',' :: escOpt x)) := by
  intro S
  induction S with
  | nil => intro j h; simp [merge_acc]
  | cons s S ih =>
      intro j h
      have hstep : merge_acc (some j) (s :: S) =
          merge_acc (some (j ++ ',' :: escOpt s)) S := by
        simp [merge_acc, merge_add, add_opt_true_ne s h]
      rw [hstep, ih _ (by simp)]
      simp

theorem merge_acc_from_empty : ∀ (S : List Str),
    merge_acc (some []) S =
      some (joinE (S.dropWhile (fun x => x.isEmpty))) := by
  intro S
  induction S with
  | nil => simp [merge_acc, joinE]
  | cons s S ih =>
      by_cases hs : s = []
      · subst hs
        have hstep : merge_acc (some []) ([] :: S) = merge_acc (some []) S := by
          simp [merge_acc, merge_add, add_opt_true_nil _ (Or.inr rfl), escOpt]
        rw [hstep, ih]
        simp [List.dropWhile]
      · have hstep : merge_acc (some []) (s :: S) =
            merge_acc (some (escOpt s)) S := by
          simp [merge_acc, merge_add, add_opt_true_nil _ (Or.inr rfl)]
        rw [hstep, merge_acc_ne S _ (escOpt_ne_nil hs)]
        have hemp : s.isEmpty = false := by simp [List.isEmpty_iff, hs]
        have : (s :: S).dropWhile (fun x => x.isEmpty) = s :: S := by
          rw [List.dropWhile_cons]
          simp [hemp]
        rw [this, joinE]

theorem merge_acc_none_eq : ∀ (S : List Str), S ≠ [] →
    merge_acc none S =
      some (joinE (S.dropWhile (fun x => x.isEmpty))) := by
  intro S hS
  cases S with
  | nil => exact absurd rfl hS
  | cons s S =>
      by_cases hs : s = []
      · subst hs
        have hstep : merge_acc none ([] :: S) = merge_acc (some []) S := by
          simp [merge_acc, merge_add, add_opt_true_nil _ (Or.inl rfl), escOpt]
        rw [hstep, merge_acc_from_empty]
        simp [List.dropWhile]
      · have hstep : merge_acc none (s :: S) =
            merge_acc (some (escOpt s)) S := by
          simp [merge_acc, merge_add, add_opt_true_nil _ (Or.inl rfl)]
        rw [hstep, merge_acc_ne S _ (escOpt_ne_nil hs)]
        have hemp : s.isEmpty = false := by simp [List.isEmpty_iff, hs]
        have : (s :: S).dropWhile (fun x => x.isEmpty) = s :: S := by
          rw [List.dropWhile_cons]
          simp [hemp]
        rw [this, joinE]

theorem decode_bslash_lit (d : Str) (c : Char) (t : Str)
    (hc : c = ',' ∨ c = '\\') :
    decode_group d ('\\' :: c :: t) = decode_group (d ++ [c]) t := by
  rw [decode_group_cons]
  rcases t with _ | ⟨x, _ | ⟨y, t2⟩⟩ <;>
    rcases hc with rfl | rfl <;> simp [isOctHi]

theorem decode_plain (d : Str) (c : Char) (t : Str)
    (h1 : c ≠ ',') (h2 : c ≠ '\\') :
    decode_group d (c :: t) = decode_group (d ++ [c]) t := by
  rw [decode_group_cons, if_neg h1, if_neg h2]

/-- Decoding escaped text accumulates it literally. -/
theorem decode_escOpt : ∀ (s d rest : Str),
    decode_group d (escOpt s ++ rest) = decode_group (d ++ s) rest := by
  intro s
  induction s with
  | nil => intro d rest; simp [escOpt_nil]
  | cons c s ih =>
      intro d rest
      rw [escOpt_cons]
      by_cases hc : c = ',' ∨ c = '\\'
      · rw [if_pos hc]
        have : (['\\', c] ++ escOpt s) ++ rest = '\\' :: c :: (escOpt s ++ rest) := by
          simp
        rw [this, decode_bslash_lit _ _ _ hc, ih]
        simp
      · push_neg at hc
        rw [if_neg (by tauto)]
        have : ([c] ++ escOpt s) ++ rest = c :: (escOpt s ++ rest) := by simp
        rw [this, decode_plain _ _ _ hc.1 hc.2, ih]
        simp

/-- Decoding the canonical comma-join recovers the sub-options. -/
theorem decode_joinE : ∀ (t : List Str), t ≠ [] →
    decode_group [] (joinE t) = t := by
  intro t
  induction t with
  | nil => intro h; exact absurd rfl h
  | cons s rest ih =>
      intro _
      cases rest with
      | nil =>
          rw [joinE]
          simp only [List.flatMap_nil, List.append_nil]
          have := decode_escOpt s [] []
          simpa [decode_group_nil] using this
      | cons s2 rest2 =>
          rw [joinE]
          have hflat : (s2 :: rest2).flatMap (fun x => ',' :: escOpt x) =
              ',' :: joinE (s2 :: rest2) := by
            simp [joinE]
          rw [hflat, decode_escOpt s [] (',' :: joinE (s2 :: rest2))]
          simp only [List.nil_append]
          have hcomma : decode_group s (',' :: joinE (s2 :: rest2)) =
              s :: decode_group [] (joinE (s2 :: rest2)) := by
            rw [decode_group_cons]
            simp only [reduceIte]
          rw [hcomma, ih (by simp)]

theorem dropWhile_head_not {p : Str → Bool} :
    ∀ {l : List Str} {t0 : Str} {rest : List Str},
    l.dropWhile p = t0 :: rest → p t0 = false := by
  intro l
  induction l with
  | nil => intro t0 rest h; cases h
  | cons x xs ih =>
      intro t0 rest h
      rw [List.dropWhile_cons] at h
      split at h
      · exact ih h
      · next hx =>
          cases h
          simpa using hx

/-- The merge accumulator round-trips: decoding a merged string and
re-merging its sub-options reproduces it. -/
theorem merge_trip {S : List Str} {m : Str} (hS : S ≠ [])
    (hm : merge_acc none S = some m) :
    merge_acc none (decode_group [] m) = some m := by
  rw [merge_acc_none_eq S hS] at hm
  cases hm
  cases hT : S.dropWhile (fun x => x.isEmpty) with
  | nil =>
      simp [joinE, merge_acc, merge_add, add_opt_true_nil _ (Or.inl rfl),
        escOpt, decode_group_nil]
  | cons t0 T =>
      have ht0 : t0 ≠ [] := by
        have := dropWhile_head_not hT
        simpa [List.isEmpty_iff] using this
      rw [decode_joinE _ (by simp)]
      rw [merge_acc_none_eq _ (by simp)]
      have hemp : t0.isEmpty = false := by simp [List.isEmpty_iff, ht0]
      have : (t0 :: T).dropWhile (fun x => x.isEmpty) = t0 :: T := by
        rw [List.dropWhile_cons]
        simp [hemp]
      rw [this]

/-! ## Fixed points of the reference description -/

theorem decode_group_ne_nil_aux :
    ∀ (n : Nat) (s d : Str), s.length ≤ n → decode_group d s ≠ [] := by
  intro n
  induction n with
  | zero =>
      intro s d hs
      have hnil : s = [] := List.length_eq_zero.mp (Nat.le_zero.mp hs)
      subst hnil
      simp [decode_group_nil]
  | succ n ih =>
      intro s d hs
      cases s with
      | nil => simp [decode_group_nil]
      | cons c s =>
          simp only [List.length_cons] at hs
          rw [decode_group_cons]
          by_cases hc : c = ','
          · rw [if_pos hc]; simp
          · rw [if_neg hc]
            by_cases hb : c = '\\'
            · rw [if_pos hb]
              rcases s with _ | ⟨c1, _ | ⟨c2, _ | ⟨c3, s3⟩⟩⟩
              · simp
              · simpa using ih [] (d ++ [c1]) (by simp)
              · simpa using ih [c2] (d ++ [c1])
                  (by simp only [List.length_cons] at hs ⊢; omega)
              · simp only [List.length_cons] at hs
                by_cases hoct : isOctHi c1 = true ∧ isOctLo c2 = true ∧ isOctLo c3 = true
                · simpa [hoct] using ih s3 (d ++ [octChar c1 c2 c3]) (by omega)
                · simpa [hoct] using ih (c2 :: c3 :: s3) (d ++ [c1])
                    (by simp only [List.length_cons]; omega)
            · rw [if_neg hb]
              exact ih s _ (by omega)

theorem decode_group_ne_nil (d s : Str) : decode_group d s ≠ [] :=
  decode_group_ne_nil_aux s.length s d le_rfl

theorem selfKeep_of_not_dash {a : Str} (h : a.head? ≠ some '-') : selfKeep a :=
  fun hh => absurd hh h

theorem eq_sepTok_of_shape {a : Str} (h0 : a.head? = some '-')
    (h1 : a.get? 1 = some '-') (h2 : a.get? 2 = none) : a = sepTok := by
  rcases a with _ | ⟨c0, _ | ⟨c1, _ | ⟨c2, t⟩⟩⟩
  · exact Option.noConfusion h0
  · exact Option.noConfusion h1
  · obtain rfl : c0 = '-' := Option.some.inj h0
    obtain rfl : c1 = '-' := Option.some.inj h1
    rfl
  · exact Option.noConfusion h2

/-- Self-kept tokens are walked over by appending them one at a time. -/
theorem ref_step_append_keep :
    ∀ (A : List Str), (∀ a ∈ A, selfKeep a) → ∀ (r : RefSt) (rest : List Str),
    ref_step r (A ++ rest) = ref_step ⟨r.out ++ A, r.opts, r.nonopt⟩ rest := by
  intro A
  induction A with
  | nil =>
      intro _ r rest
      cases r
      simp
  | cons a A ih =>
      intro hSK r rest
      have hstep : ref_step r ((a :: A) ++ rest) =
          ref_step ⟨r.out ++ [a], r.opts, r.nonopt⟩ (A ++ rest) := by
        rw [List.cons_append, ref_step_cons]
        by_cases h1 : r.nonopt ≠ 0 ∨ a.head? ≠ some '-'
        · rw [if_pos h1]
        · push_neg at h1
          obtain ⟨hsk1, hsk2⟩ := hSK a (by simp) h1.2
          rw [if_neg (by push_neg; exact h1), if_neg hsk1, if_neg hsk2]
      rw [hstep, ih (fun x hx => hSK x (by simp [hx])) ⟨r.out ++ [a], r.opts, r.nonopt⟩ rest]
      simp

/-- Once the positional region is open, every token is appended. -/
theorem ref_step_postsep :
    ∀ (B : List Str) (r : RefSt), r.nonopt ≠ 0 →
    ref_step r B = some ⟨r.out ++ B, r.opts, r.nonopt⟩ := by
  intro B
  induction B with
  | nil =>
      intro r _
      cases r
      simp [ref_step_nil]
  | cons b B ih =>
      intro r h
      rw [ref_step_cons, if_pos (Or.inl h), ih ⟨r.out ++ [b], r.opts, r.nonopt⟩ h]
      simp

/-- The merge-image is closed under folding one more decoded group. -/
theorem merge_img (o : Option Str)
    (ho : o = none ∨ ∃ S, S ≠ [] ∧ merge_acc none S = o) (v : Str) :
    ∃ S, S ≠ [] ∧ merge_acc none S = merge_acc o (decode_group [] v) := by
  rcases ho with rfl | ⟨S, hS, hmS⟩
  · exact ⟨decode_group [] v, decode_group_ne_nil _ _, rfl⟩
  · refine ⟨S ++ decode_group [] v, by simp [hS], ?_⟩
    rw [merge_acc, List.foldl_append, ← merge_acc, ← merge_acc, hmS]

/-- Shape invariant of the reference walk: the output is the program
name followed by self-kept tokens, with at most one literal separator
recorded at the right position, and the accumulator stays in the
merge image. -/
theorem ref_step_inv_aux :
    ∀ (n : Nat) (toks : List Str), toks.length ≤ n →
    ∀ (a0 : Str) (r r' : RefSt),
    ((r.nonopt = 0 ∧ ∃ A, r.out = a0 :: A ∧ ∀ x ∈ A, selfKeep x) ∨
      (∃ A B, r.out = a0 :: A ++ sepTok :: B ∧ (∀ x ∈ A, selfKeep x) ∧
        r.nonopt = A.length + 2)) →
    (r.opts = none ∨ ∃ S, S ≠ [] ∧ merge_acc none S = r.opts) →
    ref_step r toks = some r' →
    ((r'.nonopt = 0 ∧ ∃ A, r'.out = a0 :: A ∧ ∀ x ∈ A, selfKeep x) ∨
      (∃ A B, r'.out = a0 :: A ++ sepTok :: B ∧ (∀ x ∈ A, selfKeep x) ∧
        r'.nonopt = A.length + 2)) ∧
    (r'.opts = none ∨ ∃ S, S ≠ [] ∧ merge_acc none S = r'.opts) := by
  intro n
  induction n with
  | zero =>
      intro toks ht a0 r r' hinv hopts h
      have hnil : toks = [] := List.length_eq_zero.mp (Nat.le_zero.mp ht)
      subst hnil
      rw [ref_step_nil] at h
      cases h
      exact ⟨hinv, hopts⟩
  | succ n ih =>
      intro toks ht a0 r r' hinv hopts h
      cases toks with
      | nil =>
          rw [ref_step_nil] at h
          cases h
          exact ⟨hinv, hopts⟩
      | cons a rest =>
          have hrest : rest.length ≤ n := by
            simp only [List.length_cons] at ht; omega
          rw [ref_step_cons] at h
          by_cases h1 : r.nonopt ≠ 0 ∨ a.head? ≠ some '-'
          · rw [if_pos h1] at h
            refine ih rest hrest a0 ⟨r.out ++ [a], r.opts, r.nonopt⟩ r' ?_ ?_ h
            · rcases hinv with ⟨hz, A, hout, hSK⟩ | ⟨A, B, hout, hSK, hn⟩
              · have hhd : a.head? ≠ some '-' := by
                  rcases h1 with h1 | h1
                  · exact absurd hz h1
                  · exact h1
                left
                refine ⟨hz, A ++ [a], by simp [hout], ?_⟩
                intro x hx
                rcases List.mem_append.mp hx with hx | hx
                · exact hSK x hx
                · simp only [List.mem_singleton] at hx
                  subst hx
                  exact selfKeep_of_not_dash hhd
              · right
                exact ⟨A, B ++ [a], by simp [hout], hSK, hn⟩
            · exact hopts
          · push_neg at h1
            obtain ⟨hz, hhd⟩ := h1
            rcases hinv with ⟨-, A, hout, hSK⟩ | ⟨A, B, hout, hSK, hn⟩
            swap
            · rw [hz] at hn
              omega
            rw [if_neg (by push_neg; exact ⟨hz, hhd⟩)] at h
            by_cases h2 : a.get? 1 = some 'o'
            · rw [if_pos h2] at h
              by_cases h3 : (a.get? 2).isSome
              · rw [if_pos h3] at h
                refine ih rest hrest a0 _ r' ?_ ?_ h
                · left; exact ⟨hz, A, hout, hSK⟩
                · right; exact merge_img r.opts hopts (a.drop 2)
              · rw [if_neg h3] at h
                cases rest with
                | nil => cases h
                | cons v rest2 =>
                    have hrest2 : rest2.length ≤ n := by
                      simp only [List.length_cons] at ht; omega
                    refine ih rest2 hrest2 a0 _ r' ?_ ?_ h
                    · left; exact ⟨hz, A, hout, hSK⟩
                    · right; exact merge_img r.opts hopts v
            · rw [if_neg h2] at h
              by_cases h3 : a.get? 1 = some '-' ∧ a.get? 2 = none
              · rw [if_pos h3] at h
                obtain rfl : a = sepTok := eq_sepTok_of_shape hhd h3.1 h3.2
                refine ih rest hrest a0
                  ⟨r.out ++ [sepTok], r.opts, r.out.length + 1⟩ r' ?_ ?_ h
                · right
                  exact ⟨A, [], by simp [hout], hSK, by simp [hout]⟩
                · exact hopts
              · rw [if_neg h3] at h
                refine ih rest hrest a0
                  ⟨r.out ++ [a], r.opts, r.nonopt⟩ r' ?_ ?_ h
                · left
                  refine ⟨hz, A ++ [a], by simp [hout], ?_⟩
                  intro x hx
                  rcases List.mem_append.mp hx with hx | hx
                  · exact hSK x hx
                  · simp only [List.mem_singleton] at hx
                    subst hx
                    exact fun _ => ⟨h2, h3⟩
                · exact hopts

/-- The invariant holds of every completed reference walk. -/
theorem ref_run_shape {a0 : Str} {toks : List Str} {r' : RefSt}
    (h : ref_step ⟨[a0], none, 0⟩ toks = some r') :
    ((r'.nonopt = 0 ∧ ∃ A, r'.out = a0 :: A ∧ ∀ x ∈ A, selfKeep x) ∨
      (∃ A B, r'.out = a0 :: A ++ sepTok :: B ∧ (∀ x ∈ A, selfKeep x) ∧
        r'.nonopt = A.length + 2)) ∧
    (r'.opts = none ∨ ∃ S, S ≠ [] ∧ merge_acc none S = r'.opts) :=
  ref_step_inv_aux toks.length toks le_rfl a0 _ r'
    (Or.inl ⟨rfl, [], rfl, by simp⟩) (Or.inl rfl) h

theorem empty_keep_ref_run_none (a0 : Str) (toks out : List Str) (non : Nat)
    (h : ref_step ⟨[a0], none, 0⟩ toks = some ⟨out, none, non⟩) :
    empty_keep_ref (a0 :: toks) = some (strip_sep non out) := by
  show (match ref_step ⟨[a0], none, 0⟩ toks with
    | none => none
    | some r =>
        some (strip_sep r.nonopt (match r.opts with
          | some m => insert_arg (insert_arg r.out 1 oTok) 2 m
          | none => r.out))) = some (strip_sep non out)
  rw [h]

theorem empty_keep_ref_run_some (a0 m : Str) (toks out : List Str) (non : Nat)
    (h : ref_step ⟨[a0], none, 0⟩ toks = some ⟨out, some m, non⟩) :
    empty_keep_ref (a0 :: toks) =
      some (strip_sep non (insert_arg (insert_arg out 1 oTok) 2 m)) := by
  show (match ref_step ⟨[a0], none, 0⟩ toks with
    | none => none
    | some r =>
        some (strip_sep r.nonopt (match r.opts with
          | some mm => insert_arg (insert_arg r.out 1 oTok) 2 mm
          | none => r.out))) =
      some (strip_sep non (insert_arg (insert_arg out 1 oTok) 2 m))
  rw [h]

theorem ref_fix_plain (a0 : Str) (A : List Str)
    (hSK : ∀ x ∈ A, selfKeep x) :
    empty_keep_ref (a0 :: A) = some (a0 :: A) := by
  have hs := ref_step_append_keep A hSK ⟨[a0], none, 0⟩ []
  rw [List.append_nil] at hs
  have hs2 : ref_step ⟨[a0], none, 0⟩ A = some ⟨a0 :: A, none, 0⟩ := by
    rw [hs, ref_step_nil]
    rfl
  simp only [empty_keep_ref, hs2]
  simp [strip_sep]

theorem ref_fix_plain_sep (a0 : Str) (A B : List Str)
    (hSK : ∀ x ∈ A, selfKeep x) (hB : B ≠ []) :
    empty_keep_ref (a0 :: A ++ sepTok :: B) =
      some (a0 :: A ++ sepTok :: B) := by
  have h1 : ref_step ⟨[a0], none, 0⟩ (A ++ sepTok :: B) =
      ref_step ⟨a0 :: A, none, 0⟩ (sepTok :: B) := by
    rw [ref_step_append_keep A hSK]
    rfl
  have h2 : ref_step ⟨a0 :: A, none, 0⟩ (sepTok :: B) =
      ref_step ⟨(a0 :: A) ++ [sepTok], none, (a0 :: A).length + 1⟩ B := by
    rw [ref_step_cons, if_neg (by simp [sepTok]), if_neg (by decide),
      if_pos (by decide)]
  have h3 := ref_step_postsep B
    ⟨(a0 :: A) ++ [sepTok], none, (a0 :: A).length + 1⟩ (by simp)
  have hrun : ref_step ⟨[a0], none, 0⟩ (A ++ sepTok :: B) =
      some ⟨a0 :: A ++ sepTok :: B, none, A.length + 2⟩ := by
    rw [h1, h2, h3]
    simp
  have hBpos : 0 < B.length := List.length_pos.mpr hB
  have hc : ¬(A.length + 2 ≠ 0 ∧ A.length + 2 = (a0 :: A ++ sepTok :: B).length ∧
      (a0 :: A ++ sepTok :: B).getLast? = some sepTok) := by
    rintro ⟨-, hc2, -⟩
    simp only [List.length_cons, List.length_append] at hc2
    omega
  rw [show (a0 :: A ++ sepTok :: B : List Str) = a0 :: (A ++ sepTok :: B)
    by simp]
  rw [empty_keep_ref_run_none a0 (A ++ sepTok :: B) (a0 :: A ++ sepTok :: B)
    (A.length + 2) hrun]
  simp only [strip_sep, if_neg hc]
  simp

theorem ref_fix_merged (a0 m : Str) (A : List Str)
    (hm : ∃ S, S ≠ [] ∧ merge_acc none S = some m)
    (hSK : ∀ x ∈ A, selfKeep x) :
    empty_keep_ref (a0 :: oTok :: m :: A) = some (a0 :: oTok :: m :: A) := by
  obtain ⟨S, hS, hmS⟩ := hm
  have htrip : merge_acc none (decode_group [] m) = some m := merge_trip hS hmS
  have h1 : ref_step ⟨[a0], none, 0⟩ (oTok :: m :: A) =
      ref_step ⟨[a0], some m, 0⟩ A := by
    rw [ref_step_cons, if_neg (by simp [oTok]), if_pos (by decide),
      if_neg (by decide)]
    show ref_step ⟨[a0], merge_acc none (decode_group [] m), 0⟩ A =
      ref_step ⟨[a0], some m, 0⟩ A
    rw [htrip]
  have hs := ref_step_append_keep A hSK ⟨[a0], some m, 0⟩ []
  rw [List.append_nil] at hs
  have h2 : ref_step ⟨[a0], some m, 0⟩ A = some ⟨a0 :: A, some m, 0⟩ := by
    rw [hs, ref_step_nil]
    rfl
  simp only [empty_keep_ref, h1, h2]
  simp [strip_sep, insert_arg]

theorem ref_fix_merged_sep (a0 m : Str) (A B : List Str)
    (hm : ∃ S, S ≠ [] ∧ merge_acc none S = some m)
    (hSK : ∀ x ∈ A, selfKeep x) :
    empty_keep_ref (a0 :: oTok :: m :: A ++ sepTok :: B) =
      some (a0 :: oTok :: m :: A ++ sepTok :: B) := by
  obtain ⟨S, hS, hmS⟩ := hm
  have htrip : merge_acc none (decode_group [] m) = some m := merge_trip hS hmS
  have h1 : ref_step ⟨[a0], none, 0⟩ (oTok :: m :: (A ++ sepTok :: B)) =
      ref_step ⟨[a0], some m, 0⟩ (A ++ sepTok :: B) := by
    rw [ref_step_cons, if_neg (by simp [oTok]), if_pos (by decide),
      if_neg (by decide)]
    show ref_step ⟨[a0], merge_acc none (decode_group [] m), 0⟩ (A ++ sepTok :: B) =
      ref_step ⟨[a0], some m, 0⟩ (A ++ sepTok :: B)
    rw [htrip]
  have h2 : ref_step ⟨[a0], some m, 0⟩ (A ++ sepTok :: B) =
      ref_step ⟨a0 :: A, some m, 0⟩ (sepTok :: B) := by
    rw [ref_step_append_keep A hSK]
    rfl
  have h3 : ref_step ⟨a0 :: A, some m, 0⟩ (sepTok :: B) =
      ref_step ⟨(a0 :: A) ++ [sepTok], some m, (a0 :: A).length + 1⟩ B := by
    rw [ref_step_cons, if_neg (by simp [sepTok]), if_neg (by decide),
      if_pos (by decide)]
  have h4 := ref_step_postsep B
    ⟨(a0 :: A) ++ [sepTok], some m, (a0 :: A).length + 1⟩ (by simp)
  have hrun : ref_step ⟨[a0], none, 0⟩ (oTok :: m :: (A ++ sepTok :: B)) =
      some ⟨a0 :: A ++ sepTok :: B, some m, A.length + 2⟩ := by
    rw [h1, h2, h3, h4]
    simp
  have hc : ¬(A.length + 2 ≠ 0 ∧
      A.length + 2 = (a0 :: oTok :: m :: (A ++ sepTok :: B)).length ∧
      (a0 :: oTok :: m :: (A ++ sepTok :: B)).getLast? = some sepTok) := by
    rintro ⟨-, hc2, -⟩
    simp only [List.length_cons, List.length_append] at hc2
    omega
  rw [show (a0 :: oTok :: m :: A ++ sepTok :: B : List Str) =
    a0 :: (oTok :: m :: (A ++ sepTok :: B)) by simp]
  rw [empty_keep_ref_run_some a0 m (oTok :: m :: (A ++ sepTok :: B))
    (a0 :: A ++ sepTok :: B) (A.length + 2) hrun]
  have hins : insert_arg (insert_arg (a0 :: A ++ sepTok :: B) 1 oTok) 2 m =
      a0 :: oTok :: m :: (A ++ sepTok :: B) := by
    simp [insert_arg]
  rw [hins]
  simp only [strip_sep, if_neg hc]

/-- Outputs of the reference description are its fixed points. -/
theorem ref_idem {a0 : Str} {toks O : List Str}
    (h : empty_keep_ref (a0 :: toks) = some O) :
    empty_keep_ref O = some O := by
  cases hr : ref_step ⟨[a0], none, 0⟩ toks with
  | none =>
      rw [show empty_keep_ref (a0 :: toks) = (match ref_step ⟨[a0], none, 0⟩ toks with
        | none => none
        | some r =>
            some (strip_sep r.nonopt (match r.opts with
              | some m => insert_arg (insert_arg r.out 1 oTok) 2 m
              | none => r.out))) from rfl, hr] at h
      exact Option.noConfusion h
  | some r =>
      obtain ⟨rout, ropts, rnon⟩ := r
      obtain ⟨hinv, hopts⟩ := ref_run_shape hr
      rcases hinv with ⟨hz, A, hout, hSK⟩ | ⟨A, B, hout, hSK, hn⟩
      · rcases hopts with hnone | ⟨S, hS, hmS⟩
        · have hz2 : rnon = 0 := hz
          have hnone2 : ropts = none := hnone
          have hout2 : rout = a0 :: A := hout
          subst hz2 hnone2 hout2
          rw [empty_keep_ref_run_none a0 toks (a0 :: A) 0 hr] at h
          rw [show strip_sep 0 (a0 :: A) = a0 :: A by simp [strip_sep]] at h
          cases h
          exact ref_fix_plain a0 A hSK
        · have hz2 : rnon = 0 := hz
          have hmS2 : merge_acc none S = ropts := hmS
          have hout2 : rout = a0 :: A := hout
          obtain ⟨m, hm⟩ : ∃ m, ropts = some m := by
            rw [← hmS2, merge_acc_none_eq S hS]
            exact ⟨_, rfl⟩
          subst hz2 hm hout2
          rw [empty_keep_ref_run_some a0 m toks (a0 :: A) 0 hr] at h
          have hins : insert_arg (insert_arg (a0 :: A) 1 oTok) 2 m =
              a0 :: oTok :: m :: A := by
            simp [insert_arg]
          rw [hins, show strip_sep 0 (a0 :: oTok :: m :: A) = a0 :: oTok :: m :: A
            by simp [strip_sep]] at h
          cases h
          exact ref_fix_merged a0 m A ⟨S, hS, hmS2⟩ hSK
      · rcases hopts with hnone | ⟨S, hS, hmS⟩
        · have hn2 : rnon = A.length + 2 := hn
          have hnone2 : ropts = none := hnone
          have hout2 : rout = a0 :: A ++ sepTok :: B := hout
          subst hn2 hnone2 hout2
          rw [empty_keep_ref_run_none a0 toks (a0 :: A ++ sepTok :: B)
            (A.length + 2) hr] at h
          cases B with
          | nil =>
              have hp : A.length + 2 ≠ 0 ∧
                  A.length + 2 = (a0 :: A ++ sepTok :: []).length ∧
                  (a0 :: A ++ sepTok :: []).getLast? = some sepTok := by
                refine ⟨by omega, by simp, ?_⟩
                rw [show a0 :: A ++ sepTok :: [] = (a0 :: A) ++ [sepTok] by simp]
                rw [List.getLast?_concat]
              rw [show strip_sep (A.length + 2) (a0 :: A ++ sepTok :: []) =
                  (a0 :: A ++ sepTok :: []).dropLast by
                simp only [strip_sep, if_pos hp]] at h
              rw [show a0 :: A ++ sepTok :: [] = (a0 :: A) ++ [sepTok] by simp,
                List.dropLast_concat] at h
              cases h
              exact ref_fix_plain a0 A hSK
          | cons b B2 =>
              have hq : ¬(A.length + 2 ≠ 0 ∧
                  A.length + 2 = (a0 :: A ++ sepTok :: b :: B2).length ∧
                  (a0 :: A ++ sepTok :: b :: B2).getLast? = some sepTok) := by
                rintro ⟨-, hc2, -⟩
                simp only [List.length_cons, List.length_append] at hc2
                omega
              rw [show strip_sep (A.length + 2) (a0 :: A ++ sepTok :: b :: B2) =
                  a0 :: A ++ sepTok :: b :: B2 by
                simp only [strip_sep, if_neg hq]] at h
              cases h
              exact ref_fix_plain_sep a0 A (b :: B2) hSK (by simp)
        · have hn2 : rnon = A.length + 2 := hn
          have hmS2 : merge_acc none S = ropts := hmS
          have hout2 : rout = a0 :: A ++ sepTok :: B := hout
          obtain ⟨m, hm⟩ : ∃ m, ropts = some m := by
            rw [← hmS2, merge_acc_none_eq S hS]
            exact ⟨_, rfl⟩
          subst hn2 hm hout2
          rw [empty_keep_ref_run_some a0 m toks (a0 :: A ++ sepTok :: B)
            (A.length + 2) hr] at h
          have hins : insert_arg (insert_arg (a0 :: A ++ sepTok :: B) 1 oTok) 2 m =
              a0 :: oTok :: m :: (A ++ sepTok :: B) := by
            simp [insert_arg]
          rw [hins] at h
          have hs2 : ¬(A.length + 2 ≠ 0 ∧
              A.length + 2 = (a0 :: oTok :: m :: (A ++ sepTok :: B)).length ∧
              (a0 :: oTok :: m :: (A ++ sepTok :: B)).getLast? = some sepTok) := by
            rintro ⟨-, hc2, -⟩
            simp only [List.length_cons, List.length_append] at hc2
            omega
          rw [show strip_sep (A.length + 2) (a0 :: oTok :: m :: (A ++ sepTok :: B)) =
              a0 :: oTok :: m :: (A ++ sepTok :: B) by
            simp only [strip_sep, if_neg hs2]] at h
          cases h
          exact ref_fix_merged_sep a0 m A B ⟨S, hS, hmS2⟩ hSK

/-! # Claim theorems -/

/-- C9: a NULL `args` structure, a NULL `argv` inside it, or a zero
argument count makes `fuse_opt_parse` return success immediately: the
callback is never invoked (empty trace), the result does not depend on
the spec table, and the caller's `args` structure and record come back
untouched. -/
theorem c9_theorem (args : Option FuseArgs) (data : Data)
    (tbl : List FuseOpt) (proc : Option Proc)
    (h : args = none ∨
      ∃ fa, args = some fa ∧ (fa.argv = none ∨ fa.argv = some [])) :
    fuse_opt_parse args data tbl proc = some ⟨args, data, []⟩ := by
  rcases h with rfl | ⟨fa, rfl, h2⟩
  · rfl
  · obtain ⟨argv⟩ := fa
    have h3 : argv = none ∨ argv = some [] := h2
    rcases h3 with rfl | rfl <;> rfl

/-- Witness for C9 at a concrete degenerate input. -/
theorem c9_witness :
    ((none : Option FuseArgs) = none ∨
      ∃ fa, (none : Option FuseArgs) = some fa ∧
        (fa.argv = none ∨ fa.argv = some [])) ∧
    fuse_opt_parse none (fun _ => Cell.int 0) [⟨"-x".toList, none, 1⟩] none =
      some ⟨none, (fun _ => Cell.int 0), []⟩ :=
  ⟨Or.inl rfl,
   c9_theorem none (fun _ => Cell.int 0) [⟨"-x".toList, none, 1⟩] none
     (Or.inl rfl)⟩

/-- C10: a gopt whose resolved key is the reserved DISCARD value is
dropped without consulting the callback (the context, including the
ghost trace of callback invocations, is returned unchanged); a KEEP
key bypasses the callback and keeps the token unconditionally — a
flag is appended verbatim to the output, a grouped sub-option goes to
the merge accumulator.  In neither case does a `procCall` event
appear. -/
theorem c10_theorem (env : Env) (st : St) (arg : Str) (typ : GoptType) :
    call_proc env st arg FUSE_OPT_KEY_DISCARD typ = some st ∧
    call_proc env st arg FUSE_OPT_KEY_KEEP .GOPT_FLAG =
      some { st with out := st.out ++ [arg] } ∧
    call_proc env st arg FUSE_OPT_KEY_KEEP .GOPT_OPTION =
      some { st with opts := some (add_opt_common st.opts arg true),
                     trace := st.trace ++ [.keptOpt arg] } := by
  refine ⟨rfl, ?_, ?_⟩ <;>
    · cases hp : env.proc <;> simp only [call_proc, hp] <;> rfl

/-- C5: dispatching one token against the spec table processes exactly
the matching entries, in table order, each exactly once — the chained
`find_opt(opt + 1, ...)` lookups resume scanning at the entry after the
last match, so consecutive entries matching the same token all fire. -/
theorem c5_theorem {env : Env} {st : St} {arg : Str} {typ : GoptType}
    {st' : St} (h : process_gopt env st arg typ = some st') :
    ∃ δ, st'.trace = st.trace ++ δ ∧
      firedOf δ = env.opt.filter (fun o => (match_template o.templ arg).isSome) := by
  obtain ⟨δ, h1, h2, _⟩ := process_gopt_spec h
  exact ⟨δ, h1, h2⟩

/-- Witness for C5: two consecutive `debug` entries — one writing a
record field, one carrying key 7 — both fire exactly once for a single
dispatched `debug` sub-option. -/
theorem c5_witness :
    ∃ δ, ([Event.fired ⟨"debug".toList, some 0, 1⟩,
           Event.fired ⟨"debug".toList, none, 7⟩,
           Event.procCall "debug".toList 7 1,
           Event.keptOpt "debug".toList] : List Event) = [] ++ δ ∧
      firedOf δ = [⟨"debug".toList, some 0, 1⟩, ⟨"debug".toList, none, 7⟩] :=
  c5_theorem (show process_gopt
      ⟨[⟨"debug".toList, some 0, 1⟩, ⟨"debug".toList, none, 7⟩],
        some keepAllProc, []⟩
      ⟨(fun _ => Cell.int 0), [], 0, none, 0, []⟩
      "debug".toList .GOPT_OPTION =
    some ⟨Data.write (fun _ => Cell.int 0) 0 (Cell.int 1), [], 0,
          some "debug".toList, 0,
          [Event.fired ⟨"debug".toList, some 0, 1⟩,
           Event.fired ⟨"debug".toList, none, 7⟩,
           Event.procCall "debug".toList 7 1,
           Event.keptOpt "debug".toList]⟩ from rfl)

/-- C8: a bare group-option marker with no following token, and a
space-separated template matched with no value in the token and no
following input token, both fail the parse (MissingArgument): the
dispatcher returns failure, a failing dispatch fails the whole loop,
and on the spec's own example — table entry `bar %d`, input ending in
`-o bar` — the parse call returns failure, producing no output
vector. -/
theorem c8_theorem :
    (∀ (env : Env) (st : St),
      ¬(st.nonopt ≠ 0 ∨ (env.argvAt st.argctr).head? ≠ some '-') →
      (env.argvAt st.argctr).get? 1 = some 'o' →
      ¬((env.argvAt st.argctr).get? 2).isSome →
      ¬ st.argctr + 1 < env.argc →
      process_one env st = none) ∧
    (∀ (env : Env) (st : St) (arg : Str) (typ : GoptType) (o : FuseOpt)
       (sep : Nat),
      find_opt env.opt arg = some o → match_template o.templ arg = some sep →
      sep ≠ 0 → o.templ.get? sep = some ' ' → arg.get? sep = none →
      st.argctr + 1 ≥ env.argc → process_gopt env st arg typ = none) ∧
    (∀ (env : Env) (fuel : Nat) (st : St), st.argctr < env.argc →
      process_one env st = none → parse_loop env fuel st = none) ∧
    fuse_opt_parse (some ⟨some ["prog".toList, "-o".toList, "bar".toList]⟩)
      (fun _ => Cell.int 0) [⟨"bar %d".toList, some 0, 0⟩]
      (some keepAllProc) = none := by
  refine ⟨?_, ?_, ?_, ?_⟩
  · intro env st h1 h2 h3 h4
    exact process_one_group_missing h1 h2 h3 h4
  · intro env st arg typ o sep hf hm hs1 hs2 hs3 hmiss
    exact process_gopt_missing hf hm hs1 hs2 hs3 hmiss
  · intro env fuel st h1 h2
    exact parse_loop_of_process_one_none fuel h1 h2
  · rfl

/-- Witness for C8 at a concrete input: `-o` as the final token. -/
theorem c8_witness :
    process_one ⟨[], some keepAllProc, ["prog".toList, "-o".toList]⟩
      ⟨(fun _ => Cell.int 0), ["prog".toList], 1, none, 0, []⟩ = none :=
  c8_theorem.1 ⟨[], some keepAllProc, ["prog".toList, "-o".toList]⟩
    ⟨(fun _ => Cell.int 0), ["prog".toList], 1, none, 0, []⟩
    (by decide) (by decide) (by decide) (by decide)

/-- Evaluation of `call_proc` when the callback is actually consulted. -/
theorem call_proc_eval {env : Env} {st : St} {arg : Str} {key : Int}
    {typ : GoptType} {p : Proc} (hp : env.proc = some p)
    (hk4 : key ≠ FUSE_OPT_KEY_DISCARD) (hk3 : key ≠ FUSE_OPT_KEY_KEEP) :
    call_proc env st arg key typ =
      (let r := p st.data arg key st.out
       let st1 : St :=
         { st with data := r.2.1, out := r.2.2,
                   trace := st.trace ++ [.procCall arg key r.1] }
       if r.1 = -1 then none
       else if r.1 = 0 then some st1
       else match typ with
            | .GOPT_OPTION =>
                some { st1 with opts := some (add_opt_common st1.opts arg true),
                                trace := st1.trace ++ [.keptOpt arg] }
            | .GOPT_FLAG => some { st1 with out := st1.out ++ [arg] }) := by
  simp only [call_proc, hp]
  rw [if_neg hk4, if_pos hk3]

/-- C1 (corrected): the callback's verdict discriminates on `-1`, `0`
and "anything else", not on the sign: a return of `-2` — negative but
not `-1` — keeps the token and the parse succeeds, contradicting
"a negative return aborts the whole parse".  The trace recorded by the
run shows the callback was invoked and returned `-2`. -/
theorem c1_counterexample :
    outArgv (fuse_opt_parse (some ⟨some ["prog".toList, "-x".toList]⟩)
        (fun _ => Cell.int 0) [⟨"-x".toList, none, 5⟩]
        (some (fun d _ _ o => (-2, d, o)))) =
      some ["prog".toList, "-x".toList] ∧
    (fuse_opt_parse (some ⟨some ["prog".toList, "-x".toList]⟩)
        (fun _ => Cell.int 0) [⟨"-x".toList, none, 5⟩]
        (some (fun d _ _ o => (-2, d, o)))).map ParseOut.trace =
      some [Event.fired ⟨"-x".toList, none, 5⟩,
            Event.procCall "-x".toList 5 (-2)] :=
  ⟨rfl, rfl⟩

/-- C1 (amended): for a consulted callback the verdict is ternary on
`{-1, 0, other}`: `-1` aborts the dispatch (and a failed dispatch under
the cursor fails the whole parse loop, hence the parse call), `0`
discards the token (nothing is appended anywhere for it), and any other
value — positive or negative — keeps it (flags are appended to the
output, grouped sub-options go to the merge accumulator). -/
theorem c1_theorem :
    (∀ (env : Env) (st : St) (arg : Str) (key : Int) (typ : GoptType)
       (p : Proc) (res : Int) (d2 : Data) (o2 : List Str),
      env.proc = some p → key ≠ FUSE_OPT_KEY_DISCARD →
      key ≠ FUSE_OPT_KEY_KEEP →
      p st.data arg key st.out = (res, d2, o2) →
      ((res = -1 → call_proc env st arg key typ = none) ∧
       (res = 0 → call_proc env st arg key typ =
          some { st with data := d2, out := o2,
                         trace := st.trace ++ [.procCall arg key res] }) ∧
       (res ≠ -1 → res ≠ 0 →
          call_proc env st arg key .GOPT_FLAG =
            some { st with data := d2, out := o2 ++ [arg],
                           trace := st.trace ++ [.procCall arg key res] } ∧
          call_proc env st arg key .GOPT_OPTION =
            some { st with data := d2, out := o2,
                           opts := some (add_opt_common st.opts arg true),
                           trace := st.trace ++ [.procCall arg key res,
                                                 .keptOpt arg] }))) ∧
    (∀ (env : Env) (fuel : Nat) (st : St), st.argctr < env.argc →
      process_one env st = none → parse_loop env fuel st = none) := by
  constructor
  · intro env st arg key typ p res d2 o2 hp hk4 hk3 hres
    refine ⟨?_, ?_, ?_⟩
    · intro h1
      rw [call_proc_eval hp hk4 hk3]
      simp only [hres]
      rw [if_pos h1]
    · intro h1
      rw [call_proc_eval hp hk4 hk3]
      simp only [hres]
      rw [if_neg (by rw [h1]; decide), if_pos h1]
    · intro h1 h2
      constructor <;>
        · rw [call_proc_eval hp hk4 hk3]
          simp only [hres]
          rw [if_neg h1, if_neg h2]
          try simp
  · intro env fuel st h1 h2
    exact parse_loop_of_process_one_none fuel h1 h2

/-- Witness for C1 at concrete inputs: the discard and keep verdicts of
a concrete callback. -/
theorem c1_witness :
    call_proc ⟨[], some (fun d _ _ o => ((0 : Int), d, o)), []⟩
        ⟨(fun _ => Cell.int 0), [], 0, none, 0, []⟩ "x".toList 7 .GOPT_FLAG =
      some ⟨(fun _ => Cell.int 0), [], 0, none, 0,
            [Event.procCall "x".toList 7 0]⟩ ∧
    call_proc ⟨[], some (fun d _ _ o => ((2 : Int), d, o)), []⟩
        ⟨(fun _ => Cell.int 0), [], 0, none, 0, []⟩ "x".toList 7 .GOPT_FLAG =
      some ⟨(fun _ => Cell.int 0), ["x".toList], 0, none, 0,
            [Event.procCall "x".toList 7 2]⟩ := by
  constructor
  · exact (c1_theorem.1 ⟨[], some (fun d _ _ o => ((0 : Int), d, o)), []⟩
      ⟨(fun _ => Cell.int 0), [], 0, none, 0, []⟩ "x".toList 7 .GOPT_FLAG
      (fun d _ _ o => ((0 : Int), d, o)) 0 (fun _ => Cell.int 0) []
      rfl (by decide) (by decide) rfl).2.1 rfl
  · exact ((c1_theorem.1 ⟨[], some (fun d _ _ o => ((2 : Int), d, o)), []⟩
      ⟨(fun _ => Cell.int 0), [], 0, none, 0, []⟩ "x".toList 7 .GOPT_FLAG
      (fun d _ _ o => ((2 : Int), d, o)) 2 (fun _ => Cell.int 0) []
      rfl (by decide) (by decide) rfl).2.2 (by decide) (by decide)).1

/-- C2 (corrected): the merged group option is the fold of the escaping
`add_opt_common` over all kept sub-options, in order: the counterexample
keeps the sub-options `""` and `"x"` (group value `",x"`), yet the
merged string is `"x"`, not the comma-join `",x"` — a kept empty
sub-option leaves no comma when the accumulator is still empty. -/
theorem c2_counterexample :
    outArgv (fuse_opt_parse (some ⟨some ["prog".toList, "-o".toList, ",x".toList]⟩)
        (fun _ => Cell.int 0) [] (some keepAllProc)) =
      some ["prog".toList, "-o".toList, "x".toList] ∧
    (fuse_opt_parse (some ⟨some ["prog".toList, "-o".toList, ",x".toList]⟩)
        (fun _ => Cell.int 0) [] (some keepAllProc)).map
        (fun r => keptOpts r.trace) =
      some [([] : Str), "x".toList] ∧
    ("x".toList : Str) ≠ [] ++ ',' :: "x".toList :=
  ⟨rfl, rfl, by decide⟩

/-- C2 (amended): on every successful parse the merge accumulator
equals the `add_opt_common`-fold (commas and backslashes escaped, with
a separating comma only when the accumulator is already nonempty) over
the kept grouped sub-options recorded in the trace, in order; when at
least one sub-option was kept the accumulator is set and the single
merged string is inserted, exactly once, together with its `-o`, right
after the program-name slot of the final output. -/
theorem c2_theorem (a0 : Str) (toks : List Str) (data : Data)
    (tbl : List FuseOpt) (proc : Option Proc) (r : ParseOut)
    (h : fuse_opt_parse (some ⟨some (a0 :: toks)⟩) data tbl proc = some r) :
    ∃ st, parse_loop ⟨tbl, proc, a0 :: toks⟩ (a0 :: toks).length
        ⟨data, [a0], 1, none, 0, []⟩ = some st ∧
      r.trace = st.trace ∧
      st.opts = merge_acc none (keptOpts st.trace) ∧
      (keptOpts st.trace = [] → with_merged st = st.out) ∧
      (keptOpts st.trace ≠ [] → ∃ m, st.opts = some m ∧
        with_merged st = st.out.take 1 ++ oTok :: m :: st.out.drop 1) ∧
      r.args = some ⟨some (strip_sep st.nonopt (with_merged st))⟩ := by
  rw [fuse_opt_parse_main] at h
  cases hp : parse_loop ⟨tbl, proc, a0 :: toks⟩ (a0 :: toks).length
      ⟨data, [a0], 1, none, 0, []⟩ with
  | none => rw [hp] at h; cases h
  | some st =>
      rw [hp] at h
      cases h
      obtain ⟨⟨δ, t1, t2⟩, _, _⟩ := parse_loop_steps _ _ _ hp
      have hacc : st.opts = merge_acc none (keptOpts st.trace) := by
        rw [t1]
        simpa using t2
      refine ⟨st, rfl, rfl, hacc, ?_, ?_, rfl⟩
      · intro hk
        rw [with_merged_none]
        rw [hacc, hk, merge_acc_nil]
      · intro hk
        have := merge_acc_isSome (keptOpts st.trace) none hk
        rw [← hacc] at this
        obtain ⟨m, hm⟩ := Option.isSome_iff_exists.mp this
        exact ⟨m, hm, with_merged_some hm⟩

/-- Witness for C2 at a concrete parse: input `prog -oab`, empty table,
always-keep callback. -/
theorem c2_witness :
    ∃ st, parse_loop ⟨[], some keepAllProc, ["prog".toList, "-oab".toList]⟩
        (["prog".toList, "-oab".toList] : List Str).length
        ⟨(fun _ => Cell.int 0), ["prog".toList], 1, none, 0, []⟩ = some st ∧
      (⟨some ⟨some ["prog".toList, oTok, "ab".toList]⟩, (fun _ => Cell.int 0),
        [Event.procCall "ab".toList FUSE_OPT_KEY_OPT 1,
         Event.keptOpt "ab".toList]⟩ : ParseOut).trace = st.trace ∧
      st.opts = merge_acc none (keptOpts st.trace) ∧
      (keptOpts st.trace = [] → with_merged st = st.out) ∧
      (keptOpts st.trace ≠ [] → ∃ m, st.opts = some m ∧
        with_merged st = st.out.take 1 ++ oTok :: m :: st.out.drop 1) ∧
      (⟨some ⟨some ["prog".toList, oTok, "ab".toList]⟩, (fun _ => Cell.int 0),
        [Event.procCall "ab".toList FUSE_OPT_KEY_OPT 1,
         Event.keptOpt "ab".toList]⟩ : ParseOut).args =
        some ⟨some (strip_sep st.nonopt (with_merged st))⟩ :=
  c2_theorem "prog".toList ["-oab".toList] (fun _ => Cell.int 0) []
    (some keepAllProc)
    ⟨some ⟨some ["prog".toList, oTok, "ab".toList]⟩, (fun _ => Cell.int 0),
      [Event.procCall "ab".toList FUSE_OPT_KEY_OPT 1,
       Event.keptOpt "ab".toList]⟩ rfl

/-- C3 (corrected): the token `--` is appended verbatim and opens the
positional region — but the claim's "including parses where a pending
merged group-option is inserted during finalization" fails: with input
`prog -o x --` the kept sub-option forces the `-o`-merge insertion,
after which the recorded index no longer equals the output length, so
the trailing `--` is retained. -/
theorem c3_counterexample :
    outArgv (fuse_opt_parse
        (some ⟨some ["prog".toList, "-o".toList, "x".toList, "--".toList]⟩)
        (fun _ => Cell.int 0) [] (some keepAllProc)) =
      some ["prog".toList, oTok, "x".toList, sepTok] ∧
    (["prog".toList, oTok, "x".toList, sepTok] : List Str).getLast? =
      some sepTok :=
  ⟨rfl, rfl⟩

/-- C3 (amended): `--` (outside the positional region) is appended
verbatim and the positional index is recorded as the output length
after it; from then on every token is dispatched as positional with the
NONOPT key (the positional index never resets); at finalization the
trailing token is removed exactly when the recorded index still equals
the output length and the last token is `--` — in particular, when the
merged group option was inserted (which lengthens the output by two), a
trailing `--` is retained. -/
theorem c3_theorem :
    (∀ (env : Env) (st : St), st.nonopt = 0 →
      env.argvAt st.argctr = sepTok →
      process_one env st =
        some { st with out := st.out ++ [sepTok],
                       nonopt := st.out.length + 1 }) ∧
    (∀ (env : Env) (st : St), st.nonopt ≠ 0 →
      process_one env st =
        call_proc env st (env.argvAt st.argctr) FUSE_OPT_KEY_NONOPT
          .GOPT_FLAG) ∧
    (∀ (env : Env) (fuel : Nat) (st st' : St),
      parse_loop env fuel st = some st' → st.nonopt ≠ 0 → st'.nonopt ≠ 0) ∧
    (∀ (n : Nat) (out : List Str), n ≠ 0 → n = out.length →
      out.getLast? = some sepTok → strip_sep n out = out.dropLast) ∧
    (∀ (n : Nat) (out : List Str),
      ¬(n ≠ 0 ∧ n = out.length ∧ out.getLast? = some sepTok) →
      strip_sep n out = out) ∧
    (∀ (st : St) (m : Str), st.opts = some m → st.nonopt ≤ st.out.length →
      strip_sep st.nonopt (with_merged st) = with_merged st) := by
  refine ⟨?_, ?_, ?_, ?_, ?_, ?_⟩
  · intro env st hz hsep
    have h := @process_one_sep env st
    rw [hsep] at h
    have hres := h (by simp [hz, sepTok]) (by decide) (by decide)
    rw [← hsep] at hres
    simpa [hsep] using hres
  · intro env st hnz
    exact process_one_positional (Or.inl hnz)
  · intro env fuel st st' h hnz
    obtain ⟨_, _, hm⟩ := parse_loop_steps _ _ _ h
    omega
  · intro n out h1 h2 h3
    rw [strip_sep, if_pos ⟨h1, h2, h3⟩]
  · intro n out h1
    rw [strip_sep, if_neg h1]
  · intro st m hm hle
    rw [strip_sep, if_neg]
    intro ⟨z1, z2, z3⟩
    rw [with_merged_length hm] at z2
    omega

/-- Witness for C3's conditional conjuncts at concrete values. -/
theorem c3_witness :
    process_one ⟨[], some keepAllProc, ["prog".toList, "--".toList]⟩
      ⟨(fun _ => Cell.int 0), ["prog".toList], 1, none, 0, []⟩ =
      some ⟨(fun _ => Cell.int 0), ["prog".toList, sepTok], 1, none, 2, []⟩ ∧
    strip_sep 2 ["p".toList, sepTok] = ["p".toList] := by
  constructor
  · have h := c3_theorem.1 ⟨[], some keepAllProc, ["prog".toList, "--".toList]⟩
      ⟨(fun _ => Cell.int 0), ["prog".toList], 1, none, 0, []⟩ rfl (by decide)
    exact h
  · exact c3_theorem.2.2.2.1 2 ["p".toList, sepTok] (by decide) (by decide) (by decide)

/-- C6 (corrected): with the empty spec table and an always-keep
callback the output is NOT always the input: input `prog --` parses
successfully to just `prog` — the trailing separator is removed. -/
theorem c6_counterexample :
    outArgv (fuse_opt_parse (some ⟨some ["prog".toList, "--".toList]⟩)
        (fun _ => Cell.int 0) [] (some keepAllProc)) =
      some ["prog".toList] ∧
    (["prog".toList] : List Str) ≠ ["prog".toList, "--".toList] :=
  ⟨rfl, by decide⟩

/-- C6 (amended): parsing with the empty spec table and the always-keep
callback computes exactly the reference description `empty_keep_ref`:
every token is preserved in order except that group-option tokens are
consumed, their decoded sub-options folded (re-escaped, comma-joined)
into one merged group option inserted right after the program-name
slot, a bare trailing group marker fails the parse, and a trailing
separator `--` with nothing after it and no merge insertion is
removed. -/
theorem c6_theorem (a0 : Str) (toks : List Str) (data : Data) :
    outArgv (fuse_opt_parse (some ⟨some (a0 :: toks)⟩) data []
      (some keepAllProc)) = empty_keep_ref (a0 :: toks) :=
  empty_keep_refines a0 toks data

/-- C4 (corrected): the octal escape accepts `0..3` as its FIRST digit
only (so the value fits one byte), not `0..7` as claimed: the group
value `\700` — backslash followed by three digits each in `0..7` — does
not decode to a single raw byte (octal 700 = 448 is not a byte); the
code emits the three literal characters `700`, both in the pure decode
and through a real parse. -/
theorem c4_counterexample :
    decode_group [] "\\700".toList = ["700".toList] ∧
    outArgv (fuse_opt_parse
        (some ⟨some ["prog".toList, "-o".toList, "\\700".toList]⟩)
        (fun _ => Cell.int 0) [] (some keepAllProc)) =
      some ["prog".toList, "-o".toList, "700".toList] ∧
    (["700".toList] : List Str) ≠ [[Char.ofNat 448]] :=
  ⟨rfl, rfl, by decide⟩

/-- C4 (amended): the group scan dispatches exactly the sub-options of
the pure decode, one at a time as they are produced; the decode splits
on unescaped commas, a backslash before `,` or `\` (or any character
that does not begin a valid octal triple) yields that literal
character, and a backslash followed by one octal digit in `0..3` and
two in `0..7` decodes to the byte with that octal value; the value
`a\,b,c` decodes to exactly the two sub-options `a,b` and `c`. -/
theorem c4_theorem :
    (∀ (env : Env) (st : St) (d v : Str),
      group_loop env st d v = dispatch_subopts env st (decode_group d v)) ∧
    (∀ (d : Str) (s : Str), decode_group d (',' :: s) = d :: decode_group [] s) ∧
    (∀ (d : Str) (c : Char) (s : Str), (c = ',' ∨ c = '\\') →
      decode_group d ('\\' :: c :: s) = decode_group (d ++ [c]) s) ∧
    (∀ (d : Str) (c1 c2 c3 : Char) (s : Str),
      isOctHi c1 → isOctLo c2 → isOctLo c3 →
      decode_group d ('\\' :: c1 :: c2 :: c3 :: s) =
        decode_group (d ++ [octChar c1 c2 c3]) s) ∧
    decode_group [] "a\\,b,c".toList = ["a,b".toList, "c".toList] := by
  refine ⟨fun env st d v => group_loop_eq_dispatch st d v, ?_, ?_, ?_, rfl⟩
  · intro d s
    rw [decode_group_cons]
    simp only [reduceIte]
  · intro d c s hc
    rw [decode_group_cons]
    rcases s with _ | ⟨x, _ | ⟨y, t⟩⟩ <;>
      rcases hc with rfl | rfl <;> simp [isOctHi]
  · intro d c1 c2 c3 s h1 h2 h3
    rw [decode_group_cons]
    simp [h1, h2, h3]

/-- Witness for C4's conditional conjuncts: `\,` is a literal comma,
`\101` is the byte 65. -/
theorem c4_witness :
    decode_group [] ['\\', ',', 'x'] = decode_group ([] ++ [',']) ['x'] ∧
    decode_group [] ['\\', '1', '0', '1'] =
      decode_group ([] ++ [octChar '1' '0' '1']) [] := by
  constructor
  · exact c4_theorem.2.2.1 [] ',' ['x'] (Or.inl rfl)
  · exact c4_theorem.2.2.2.1 [] '1' '0' '1' [] (by decide) (by decide) (by decide)

/-- C7 counterexample: with a spec table holding two identical KEEP
entries for `-x` and a callback that keeps everything, one `-x` token
is kept once per matching entry, so the first parse already duplicates
it and re-parsing the output duplicates it again instead of
reproducing the first output. -/
theorem c7_counterexample :
    outArgv (fuse_opt_parse (some ⟨some ["prog".toList, "-x".toList]⟩)
        (fun _ => Cell.int 0)
        [⟨"-x".toList, none, FUSE_OPT_KEY_KEEP⟩,
         ⟨"-x".toList, none, FUSE_OPT_KEY_KEEP⟩]
        (some keepAllProc)) =
      some ["prog".toList, "-x".toList, "-x".toList] ∧
    outArgv (fuse_opt_parse
        (some ⟨some ["prog".toList, "-x".toList, "-x".toList]⟩)
        (fun _ => Cell.int 0)
        [⟨"-x".toList, none, FUSE_OPT_KEY_KEEP⟩,
         ⟨"-x".toList, none, FUSE_OPT_KEY_KEEP⟩]
        (some keepAllProc)) ≠
      some ["prog".toList, "-x".toList, "-x".toList] := by
  refine ⟨rfl, ?_⟩
  intro hc
  have he : outArgv (fuse_opt_parse
      (some ⟨some ["prog".toList, "-x".toList, "-x".toList]⟩)
      (fun _ => Cell.int 0)
      [⟨"-x".toList, none, FUSE_OPT_KEY_KEEP⟩,
       ⟨"-x".toList, none, FUSE_OPT_KEY_KEEP⟩]
      (some keepAllProc)) =
      some ["prog".toList, "-x".toList, "-x".toList, "-x".toList,
            "-x".toList] := rfl
  rw [he] at hc
  simp at hc

/-- C7 (corrected): for the empty spec table and a callback keeping
every unknown token, re-parsing a successful output ArgVector succeeds
and reproduces that output exactly, for any record; with a nonempty
table the property fails (`c7_counterexample`). -/
theorem c7_theorem (a0 : Str) (toks : List Str) (data data2 : Data)
    (O : List Str)
    (h : outArgv (fuse_opt_parse (some ⟨some (a0 :: toks)⟩) data []
      (some keepAllProc)) = some O) :
    outArgv (fuse_opt_parse (some ⟨some O⟩) data2 [] (some keepAllProc)) =
      some O := by
  rw [empty_keep_refines] at h
  have h2 : empty_keep_ref O = some O := ref_idem h
  cases O with
  | nil => exact Option.noConfusion h2
  | cons o0 os =>
      rw [empty_keep_refines o0 os data2]
      exact h2

/-- Witness for C7 at a concrete input: the output of parsing
`[p, -oab]` re-parses to itself. -/
theorem c7_witness :
    outArgv (fuse_opt_parse
      (some ⟨some ["p".toList, "-o".toList, "ab".toList]⟩)
      (fun _ => Cell.int 0) [] (some keepAllProc)) =
      some ["p".toList, "-o".toList, "ab".toList] :=
  c7_theorem "p".toList ["-oab".toList] (fun _ => Cell.int 0)
    (fun _ => Cell.int 0) ["p".toList, "-o".toList, "ab".toList] rfl

end Fuse
